import Mathlib

/-!
Shallow embedding of the `printf-compat` format engine (src/parser.rs,
src/output.rs, src/lib.rs).  Templates are NUL-free byte lists (the result of
`CStr::to_bytes`), bytes are `Nat` values below 256, machine integers are
`Int`/`Nat` with explicit wrapping where the source casts, and the variadic
pack is a list of typed slots.  Undefined behaviour (a NULL pointer handed to
`CStr::from_ptr`, an exhausted or wrongly-typed variadic fetch) is modelled by
`Option`: `none` means the run is undefined.
-/

namespace PrintfCompat

/-- Wrap an integer to the range of a 32-bit two's-complement `c_int`. -/
def wrap32 (v : Int) : Int := (v + 2 ^ 31) % 2 ^ 32 - 2 ^ 31

/-- Sign-narrowing of a variadic slot value to a `w`-bit signed integer
(the effect of reading the low `w` bits of the slot). -/
def sextNarrow (w : Nat) (v : Int) : Int := (v + 2 ^ (w - 1)) % 2 ^ w - 2 ^ (w - 1)

/-- Narrowing of a variadic slot value to a `w`-bit unsigned integer. -/
def unsNarrow (w : Nat) (v : Int) : Nat := (v % 2 ^ w).toNat

/-- The `as usize` cast applied to a `c_int` (sign-extend, reinterpret). -/
def usizeCast (v : Int) : Nat := (v % 2 ^ 64).toNat

/-- `usize::wrapping_sub(1)`. -/
def usizeSub1 (n : Nat) : Nat := (n + (2 ^ 64 - 1)) % 2 ^ 64

/-- Flags field (lib.rs `bitflags! Flags`). -/
structure Flags where
  leftAlign : Bool
  prependPlus : Bool
  prependSpace : Bool
  prependZero : Bool
  thousandsGrouping : Bool
  alternateForm : Bool
deriving DecidableEq, Repr

/-- `Flags::empty()`. -/
def Flags.empty : Flags := ⟨false, false, false, false, false, false⟩

/-- A C pointer: an address plus the bytes in memory at that address
(meaningful for `%s`; `addr = 0` is the NULL pointer). -/
structure CPtr where
  addr : Nat
  content : List Nat
deriving DecidableEq, Repr

/-- The NULL pointer. -/
def CPtr.null : CPtr := ⟨0, []⟩

/-- `CStr::from_ptr(p).to_bytes()`: undefined on NULL, otherwise the bytes at
`p` up to (excluding) the first NUL. -/
def cstrFromPtr (p : CPtr) : Option (List Nat) :=
  if p.addr = 0 then none else some (p.content.takeWhile (· ≠ 0))

/-- One slot of the variadic pack: an integer slot (stored with the
mathematical value the caller passed), a double slot (IEEE-754 bits), or a
pointer slot. -/
inductive VarArg where
  | int (v : Int)
  | double (bits : Nat)
  | ptr (p : CPtr)
deriving DecidableEq, Repr

/-- `VaList::arg::<signed int of w bits>()`: reads an integer slot,
sign-narrowed; anything else is undefined. -/
def fetchSigned (w : Nat) : List VarArg → Option (Int × List VarArg)
  | .int v :: rest => some (sextNarrow w v, rest)
  | _ => none

/-- `VaList::arg::<unsigned int of w bits>()`. -/
def fetchUnsigned (w : Nat) : List VarArg → Option (Nat × List VarArg)
  | .int v :: rest => some (unsNarrow w v, rest)
  | _ => none

/-- `VaList::arg::<f64>()`. -/
def fetchDouble : List VarArg → Option (Nat × List VarArg)
  | .double b :: rest => some (b % 2 ^ 64, rest)
  | _ => none

/-- `VaList::arg::<*const T>()`. -/
def fetchPtr : List VarArg → Option (CPtr × List VarArg)
  | .ptr p :: rest => some (p, rest)
  | _ => none

/-- lib.rs `SignedInt`: a signed argument remembering its width class. -/
inductive SignedInt where
  | int (x : Int)
  | char (x : Int)
  | short (x : Int)
  | long (x : Int)
  | longLong (x : Int)
  | isize (x : Int)
deriving DecidableEq, Repr

/-- The stored value of a `SignedInt` (each `Display` arm prints exactly it). -/
def SignedInt.val : SignedInt → Int
  | .int x | .char x | .short x | .long x | .longLong x | .isize x => x

/-- lib.rs `SignedInt::is_sign_negative`. -/
def SignedInt.is_sign_negative (s : SignedInt) : Bool := s.val < 0

/-- lib.rs `UnsignedInt`. -/
inductive UnsignedInt where
  | int (x : Nat)
  | char (x : Nat)
  | short (x : Nat)
  | long (x : Nat)
  | longLong (x : Nat)
  | isize (x : Nat)
deriving DecidableEq, Repr

/-- The stored value of an `UnsignedInt`. -/
def UnsignedInt.val : UnsignedInt → Nat
  | .int x | .char x | .short x | .long x | .longLong x | .isize x => x

/-- lib.rs `DoubleFormat`. -/
inductive DoubleFormat where
  | normal
  | upperNormal
  | scientific
  | upperScientific
  | auto
  | upperAuto
  | hex
  | upperHex
deriving DecidableEq, Repr

/-- lib.rs `DoubleFormat::set_upper`. -/
def DoubleFormat.set_upper : DoubleFormat → Bool → DoubleFormat
  | .normal, u | .upperNormal, u => if u then .upperNormal else .normal
  | .scientific, u | .upperScientific, u => if u then .upperScientific else .scientific
  | .auto, u | .upperAuto, u => if u then .upperAuto else .auto
  | .hex, u | .upperHex, u => if u then .upperHex else .hex

/-- lib.rs `Specifier`.  `string` carries the bytes of the (non-NULL,
already dereferenced) `CStr`, as `to_bytes` returns them. -/
inductive Specifier where
  | percent
  | int (v : SignedInt)
  | uint (v : UnsignedInt)
  | octal (v : UnsignedInt)
  | double (value : Nat) (format : DoubleFormat)
  | bytes (data : List Nat)
  | string (data : List Nat)
  | char (c : Nat)
  | hex (v : UnsignedInt)
  | upperHex (v : UnsignedInt)
  | pointer (p : CPtr)
  | writeBytesWritten (written : Int) (dest : CPtr)
deriving DecidableEq, Repr

/-- lib.rs `Argument`. -/
structure Argument where
  flags : Flags
  width : Int
  precision : Option Int
  specifier : Specifier
deriving DecidableEq, Repr

/-- lib.rs `impl From<Specifier> for Argument`. -/
def Argument.ofSpec (s : Specifier) : Argument := ⟨Flags.empty, 0, none, s⟩

/-! ## Parser (src/parser.rs) -/

/-- parser.rs `parse_flags` (the `while let` loop, with the accumulated
flag set made explicit). -/
def parse_flags_go (flags : Flags) : List Nat → Flags × List Nat
  | [] => (flags, [])
  | ch :: rest =>
    if ch = 45 then parse_flags_go { flags with leftAlign := true } rest
    else if ch = 43 then parse_flags_go { flags with prependPlus := true } rest
    else if ch = 32 then parse_flags_go { flags with prependSpace := true } rest
    else if ch = 48 then parse_flags_go { flags with prependZero := true } rest
    else if ch = 39 then parse_flags_go { flags with thousandsGrouping := true } rest
    else if ch = 35 then parse_flags_go { flags with alternateForm := true } rest
    else (flags, ch :: rest)

/-- parser.rs `parse_flags`. -/
def parse_flags (sub : List Nat) : Flags × List Nat := parse_flags_go Flags.empty sub

/-- parser.rs `parse_width`, digit loop (`width * 10 + (ch & 0x0f)` in
`c_int` arithmetic). -/
def parse_width_go (width : Int) : List Nat → Int × List Nat
  | [] => (width, [])
  | ch :: rest =>
    if 48 ≤ ch ∧ ch ≤ 57 then parse_width_go (wrap32 (width * 10 + Int.ofNat (ch &&& 15))) rest
    else (width, ch :: rest)

/-- parser.rs `next_char`: `sub.get(1..).unwrap_or(&[])`. -/
def next_char (sub : List Nat) : List Nat := sub.drop 1

/-- parser.rs `parse_width`: a leading `*` pulls one `c_int` from the
variadic source, otherwise a decimal run is consumed (absence gives 0). -/
def parse_width (sub : List Nat) (args : List VarArg) :
    Option (Int × List Nat × List VarArg) :=
  if sub.head? = some 42 then
    (fetchSigned 32 args).map fun (v, args') => (v, next_char sub, args')
  else some ((parse_width_go 0 sub).1, (parse_width_go 0 sub).2, args)

/-- parser.rs `parse_precision`. -/
def parse_precision (sub : List Nat) (args : List VarArg) :
    Option (Option Int × List Nat × List VarArg) :=
  if sub.head? = some 46 then
    (parse_width (next_char sub) args).map fun (p, sub', args') => (some p, sub', args')
  else some (none, sub, args)

/-- parser.rs `Length`. -/
inductive Length where
  | int
  | char
  | short
  | long
  | longLong
  | usize
  | isize
deriving DecidableEq, Repr

/-- parser.rs `parse_length`. -/
def parse_length (sub : List Nat) : Length × List Nat :=
  match sub with
  | 104 :: 104 :: rest => (.char, rest)
  | 104 :: rest => (.short, rest)
  | 108 :: 108 :: rest => (.longLong, rest)
  | 108 :: rest => (.long, rest)
  | 122 :: rest => (.usize, rest)
  | 116 :: rest => (.isize, rest)
  | _ => (.int, sub)

/-- parser.rs `Length::parse_signed`.  `c_long` and the 64-bit kinds read a
64-bit slot; `Usize` and `Isize` both produce `SignedInt::Isize`. -/
def Length.parse_signed : Length → List VarArg → Option (SignedInt × List VarArg)
  | .int, args => (fetchSigned 32 args).map fun (v, a) => (.int v, a)
  | .char, args => (fetchSigned 8 args).map fun (v, a) => (.char v, a)
  | .short, args => (fetchSigned 16 args).map fun (v, a) => (.short v, a)
  | .long, args => (fetchSigned 64 args).map fun (v, a) => (.long v, a)
  | .longLong, args => (fetchSigned 64 args).map fun (v, a) => (.longLong v, a)
  | .usize, args | .isize, args => (fetchSigned 64 args).map fun (v, a) => (.isize v, a)

/-- parser.rs `Length::parse_unsigned`. -/
def Length.parse_unsigned : Length → List VarArg → Option (UnsignedInt × List VarArg)
  | .int, args => (fetchUnsigned 32 args).map fun (v, a) => (.int v, a)
  | .char, args => (fetchUnsigned 8 args).map fun (v, a) => (.char v, a)
  | .short, args => (fetchUnsigned 16 args).map fun (v, a) => (.short v, a)
  | .long, args => (fetchUnsigned 64 args).map fun (v, a) => (.long v, a)
  | .longLong, args => (fetchUnsigned 64 args).map fun (v, a) => (.longLong v, a)
  | .usize, args | .isize, args => (fetchUnsigned 64 args).map fun (v, a) => (.isize v, a)

/-- parser.rs `str.split(|&c| c == b'%')` on the template bytes: the runs
between `%` (byte 37) occurrences; never empty as a list. -/
def splitPercent : List Nat → List (List Nat)
  | [] => [[]]
  | c :: rest =>
    if c = 37 then [] :: splitPercent rest
    else
      match splitPercent rest with
      | [] => [[c]]
      | g :: gs => (c :: g) :: gs

/-- Result of the conversion-byte match in parser.rs `format`:
a directive (with the remaining variadic args and the new
`last_was_percent`), a parse failure (unknown conversion byte, `return -1`),
or undefined behaviour in a variadic fetch / NULL `CStr`. -/
inductive ConvResult where
  | ok (spec : Specifier) (args : List VarArg) (lwp : Bool)
  | bad
  | ub

/-- The conversion-byte `match` of parser.rs `format` (lines 167-198).
`written` is the running byte total captured by `%n`. -/
def buildSpec (ch : Nat) (len : Length) (written : Int) (args : List VarArg) : ConvResult :=
  if ch = 37 then .ok .percent args true
  else if ch = 100 ∨ ch = 105 then
    match len.parse_signed args with
    | some (v, a) => .ok (.int v) a false
    | none => .ub
  else if ch = 120 then
    match len.parse_unsigned args with
    | some (v, a) => .ok (.hex v) a false
    | none => .ub
  else if ch = 88 then
    match len.parse_unsigned args with
    | some (v, a) => .ok (.upperHex v) a false
    | none => .ub
  else if ch = 117 then
    match len.parse_unsigned args with
    | some (v, a) => .ok (.uint v) a false
    | none => .ub
  else if ch = 111 then
    match len.parse_unsigned args with
    | some (v, a) => .ok (.octal v) a false
    | none => .ub
  else if ch = 102 ∨ ch = 70 then
    match fetchDouble args with
    | some (b, a) => .ok (.double b (DoubleFormat.normal.set_upper (ch = 70))) a false
    | none => .ub
  else if ch = 101 ∨ ch = 69 then
    match fetchDouble args with
    | some (b, a) => .ok (.double b (DoubleFormat.scientific.set_upper (ch = 69))) a false
    | none => .ub
  else if ch = 103 ∨ ch = 71 then
    match fetchDouble args with
    | some (b, a) => .ok (.double b (DoubleFormat.auto.set_upper (ch = 71))) a false
    | none => .ub
  else if ch = 97 ∨ ch = 65 then
    match fetchDouble args with
    | some (b, a) => .ok (.double b (DoubleFormat.hex.set_upper (ch = 65))) a false
    | none => .ub
  else if ch = 115 then
    match fetchPtr args with
    | some (p, a) =>
      match cstrFromPtr p with
      | some bs => .ok (.string bs) a false
      | none => .ub
    | none => .ub
  else if ch = 99 then
    match fetchUnsigned 8 args with
    | some (c, a) => .ok (.char c) a false
    | none => .ub
  else if ch = 112 then
    match fetchPtr args with
    | some (p, a) => .ok (.pointer p) a false
    | none => .ub
  else if ch = 110 then
    match fetchPtr args with
    | some (p, a) => .ok (.writeBytesWritten written p) a false
    | none => .ub
  else .bad

/-- One `%`-run of parser.rs `format`: flags, width, precision, length, then
the conversion byte (defaulting to `%` when another run follows, NUL at the
very end).  Returns the directive, the trailing literal bytes, the remaining
args and the new `last_was_percent`; `some none` is the `return -1` of an
unknown conversion. -/
def parseConv (sub : List Nat) (isLast : Bool) (written : Int) (args : List VarArg) :
    Option (Option (Argument × List Nat × List VarArg × Bool)) :=
  match parse_width (parse_flags sub).2 args with
  | none => none
  | some (width, s2, args2) =>
    match parse_precision s2 args2 with
    | none => none
    | some (precision, s3, args3) =>
      match buildSpec
          ((parse_length s3).2.headD (if isLast then 0 else 37))
          (parse_length s3).1 written args3 with
      | .ub => none
      | .bad => some none
      | .ok spec args4 lwp =>
        some (some (⟨(parse_flags sub).1, width, precision, spec⟩,
          (parse_length s3).2.drop 1, args4, lwp))

/-- The `tuple_windows` loop of parser.rs `format`, one iteration per
template run after the first.  The handler `h` is the per-directive sink
with its state made explicit; a negative sink return or an unknown
conversion gives `-1`, an undefined variadic fetch gives `none`. -/
def formatLoop (h : σ → Argument → σ × Int) :
    List (List Nat) → List VarArg → Bool → σ → Int → Option (σ × Int)
  | [], _, _, s, written => some (s, written)
  | sub :: rest, args, lwp, s, written =>
    if lwp then
      match h s (Argument.ofSpec (.bytes sub)) with
      | (s1, r) =>
        if r < 0 then some (s1, -1)
        else formatLoop h rest args false s1 (written + r)
    else
      match parseConv sub rest.isEmpty written args with
      | none => none
      | some none => some (s, -1)
      | some (some (a, trailing, args1, lwp1)) =>
        match h s a with
        | (s1, r1) =>
          if r1 < 0 then some (s1, -1)
          else
            match h s1 (Argument.ofSpec (.bytes trailing)) with
            | (s2, r2) =>
              if r2 < 0 then some (s2, -1)
              else formatLoop h rest args1 lwp1 s2 (written + r1 + r2)

/-! ## Renderer (src/output.rs) -/

/-- The byte of digit `d` (lowercase or uppercase letters above 9). -/
def digitByte (lower : Bool) (d : Nat) : Nat :=
  if d < 10 then 48 + d else (if lower then 87 else 55) + d

/-- Digit bytes of `n` in `base`, most significant first (fuelled so the
kernel can evaluate it). -/
def natDigitsGo (base : Nat) (lower : Bool) : Nat → Nat → List Nat → List Nat
  | 0, _, acc => acc
  | fuel + 1, n, acc =>
    if n = 0 then acc else natDigitsGo base lower fuel (n / base) (digitByte lower (n % base) :: acc)

/-- Digit bytes of `n` in `base` (`[48]` for zero). -/
def natDigits (base : Nat) (lower : Bool) (n : Nat) : List Nat :=
  if n = 0 then [48] else natDigitsGo base lower n n []

/-- Field alignment of a Rust format string. -/
inductive Align where
  | left
  | right
deriving DecidableEq, Repr

/-- Modelled from the spec: Rust `core::fmt`'s `pad_integral`, the padding
discipline behind the `write!` calls of output.rs.  The sign (`-`, or `+`
under the plus flag) and the alternate-form prefix are emitted first; with
the zero flag the fill is `0` placed between them and the body, otherwise
spaces pad on the side the alignment selects. -/
def padIntegral (isNeg : Bool) (pfx : List Nat) (body : List Nat)
    (plus zero : Bool) (al : Align) (width : Nat) : List Nat :=
  let sign := if isNeg then [45] else if plus then [43] else []
  let full := sign ++ pfx ++ body
  if width ≤ full.length then full
  else if zero then sign ++ pfx ++ List.replicate (width - full.length) 48 ++ body
  else
    match al with
    | .left => full ++ List.replicate (width - full.length) 32
    | .right => List.replicate (width - full.length) 32 ++ full

/-- output.rs `define_numeric!`: the flag-dependent choice of `write!`
format for signed integers and doubles.  `render` maps the (usize-cast)
precision to the digit body of the value's magnitude; `isNeg` is
`$data.is_sign_negative()`.  The space-flag arms first measure the plain
rendering with a `DummyWriter` and compensate the width. -/
def defineNumeric (isNeg : Bool) (render : Nat → List Nat) (flags : Flags)
    (width : Int) (prec : Int) : List Nat :=
  let pr := usizeCast prec
  if flags.leftAlign then
    if flags.prependPlus then
      padIntegral isNeg [] (render pr) true false .left (usizeCast width)
    else if flags.prependSpace ∧ !isNeg then
      32 :: padIntegral isNeg [] (render pr) false false .left (usizeSub1 (usizeCast width))
    else
      padIntegral isNeg [] (render pr) false false .left (usizeCast width)
  else if flags.prependPlus then
    if flags.prependZero then
      padIntegral isNeg [] (render pr) true true .right (usizeCast width)
    else
      padIntegral isNeg [] (render pr) true false .right (usizeCast width)
  else if flags.prependZero then
    if flags.prependSpace ∧ !isNeg then
      let d := (render pr).length
      let width2 := if d + 1 > usizeCast width then wrap32 (width + 1) else width
      32 :: padIntegral isNeg [] (render pr) false true .right (usizeSub1 (usizeCast width2))
    else
      padIntegral isNeg [] (render pr) false true .right (usizeCast width)
  else
    if flags.prependSpace ∧ !isNeg then
      let d := (render pr).length
      let width2 := if d + 1 > usizeCast width then wrap32 (Int.ofNat d + 1) else width
      padIntegral isNeg [] (render pr) false false .right (usizeCast width2)
    else
      padIntegral isNeg [] (render pr) false false .right (usizeCast width)

/-- output.rs `define_unumeric!`: the flag-dependent choice of `write!`
format for `%u`, `%o`, `%x`, `%X`.  `pfx` is the alternate-form prefix the
Rust formatter uses for the trait behind `$ty` (`0x` for hex in either
case, `0o` for octal, nothing for decimal); precision is not used by the
macro. -/
def defineUnumeric (pfx : List Nat) (body : List Nat) (flags : Flags)
    (width : Int) : List Nat :=
  if flags.leftAlign then
    if flags.alternateForm then
      padIntegral false pfx body false false .left (usizeCast width)
    else
      padIntegral false [] body false false .left (usizeCast width)
  else if flags.alternateForm then
    if flags.prependZero then
      padIntegral false pfx body false true .right (usizeCast width)
    else
      padIntegral false pfx body false false .right (usizeCast width)
  else if flags.prependZero then
    padIntegral false [] body false true .right (usizeCast width)
  else
    padIntegral false [] body false false .right (usizeCast width)

/-- Whether `b` is a UTF-8 continuation byte. -/
def isCont (b : Nat) : Bool := 128 ≤ b ∧ b ≤ 191

/-- Modelled from the spec: `core::str::from_utf8` combined with the
character structure Rust's string formatting works on.  Decodes a byte list
into the list of per-character byte groups, `none` on invalid UTF-8. -/
def utf8Chars : List Nat → Option (List (List Nat))
  | [] => some []
  | b :: rest =>
    if b < 128 then (utf8Chars rest).map ([b] :: ·)
    else if 194 ≤ b ∧ b ≤ 223 then
      match rest with
      | c :: r => if isCont c then (utf8Chars r).map ([b, c] :: ·) else none
      | [] => none
    else if 224 ≤ b ∧ b ≤ 239 then
      match rest with
      | c :: d :: r =>
        if (if b = 224 then 160 ≤ c ∧ c ≤ 191
            else if b = 237 then 128 ≤ c ∧ c ≤ 159
            else isCont c) ∧ isCont d
        then (utf8Chars r).map ([b, c, d] :: ·) else none
      | _ => none
    else if 240 ≤ b ∧ b ≤ 244 then
      match rest with
      | c :: d :: e :: r =>
        if (if b = 240 then 144 ≤ c ∧ c ≤ 191
            else if b = 244 then 128 ≤ c ∧ c ≤ 143
            else isCont c) ∧ isCont d ∧ isCont e
        then (utf8Chars r).map ([b, c, d, e] :: ·) else none
      | _ => none
    else none

/-- output.rs `write_str`: UTF-8-validate the bytes, default the precision
to the byte length, then `write!` with string semantics (precision
truncates to that many characters, width pads with spaces counted in
characters; strings align left by default, `>` aligns right). -/
def write_str (flags : Flags) (width : Int) (precision : Option Int)
    (b : List Nat) : Option (List Nat) :=
  match utf8Chars b with
  | none => none
  | some groups =>
    let prec := usizeCast (precision.getD (Int.ofNat b.length))
    let kept := groups.take prec
    let pad := List.replicate (usizeCast width - kept.length) 32
    some (if flags.leftAlign then kept.flatten ++ pad else pad ++ kept.flatten)

/-- output.rs `write_bytes` (std sink): truncate to the precision in bytes,
then pad with spaces to the width in bytes. -/
def write_bytes (flags : Flags) (width : Int) (precision : Option Int)
    (b : List Nat) : List Nat :=
  let prec := usizeCast (precision.getD (Int.ofNat b.length))
  let b2 := b.take (min b.length prec)
  let pad := List.replicate (usizeCast width - b2.length) 32
  if flags.leftAlign then b2 ++ pad else pad ++ b2

/-- UTF-8 encoding of a code point below 256 (`u8 as char`). -/
def encodeChar (c : Nat) : List Nat :=
  if c < 128 then [c] else [192 + c / 64, 128 + c % 64]

/-- output.rs `fmt_write`, `Specifier::Char` arm: one character padded to
the width (characters count; default alignment for `char` is left). -/
def renderChar (flags : Flags) (width : Int) (c : Nat) : List Nat :=
  let pad := List.replicate (usizeCast width - 1) 32
  if flags.leftAlign then encodeChar c ++ pad else pad ++ encodeChar c

/-- output.rs `fmt_write`, `Specifier::Pointer` arm: `{:p}` renders the
address as `0x`-prefixed lowercase hex; the zero flag zero-fills after the
prefix. -/
def renderPointer (flags : Flags) (width : Int) (addr : Nat) : List Nat :=
  let body := natDigits 16 true addr
  if flags.leftAlign then padIntegral false [48, 120] body false false .left (usizeCast width)
  else if flags.prependZero then padIntegral false [48, 120] body false true .right (usizeCast width)
  else padIntegral false [48, 120] body false false .right (usizeCast width)

/-- Whether the IEEE-754 sign bit of `bits` is set (`f64::is_sign_negative`). -/
def f64IsNeg (bits : Nat) : Bool := 2 ^ 63 ≤ bits % 2 ^ 64

/-- Round `num / den` to the nearest integer, ties to even. -/
def roundHalfEven (num den : Nat) : Nat :=
  let q := num / den
  let r := num % den
  if den < 2 * r then q + 1
  else if 2 * r < den then q
  else if q % 2 = 1 then q + 1 else q

/-- Left-pad digit bytes with zeros to length `n`. -/
def padZeros (n : Nat) (ds : List Nat) : List Nat :=
  List.replicate (n - ds.length) 48 ++ ds

/-- Modelled from the spec (§4.3 fixed-point rendering) and Rust
`core::fmt`'s `Display` for `f64` as used by `define_numeric!`: the exact
decimal expansion of the IEEE-754 value `bits`, rounded (ties to even) to
`prec` fractional digits; special values render `inf` / `NaN`.  The sign is
handled separately by `padIntegral`. -/
def f64RenderFixed (bits : Nat) (prec : Nat) : List Nat :=
  let E := bits / 2 ^ 52 % 2 ^ 11
  let F := bits % 2 ^ 52
  if E = 2047 then (if F = 0 then [105, 110, 102] else [78, 97, 78])
  else
    let m := if E = 0 then F else 2 ^ 52 + F
    let R :=
      if 1075 ≤ E then m * 2 ^ (E - 1075) * 10 ^ prec
      else roundHalfEven (m * 10 ^ prec) (2 ^ (1075 - max E 1))
    natDigits 10 true (R / 10 ^ prec) ++
      (if prec = 0 then [] else 46 :: padZeros prec (natDigits 10 true (R % 10 ^ prec)))

/-- Modelled from the spec (§4.3 scientific rendering) and Rust
`core::fmt`'s `LowerExp`/`UpperExp` for `f64`: mantissa with `prec`
fractional digits (ties to even), exponent written without zero padding. -/
def f64RenderExp (upper : Bool) (bits : Nat) (prec : Nat) : List Nat :=
  let E := bits / 2 ^ 52 % 2 ^ 11
  let F := bits % 2 ^ 52
  let echar := if upper then 69 else 101
  if E = 2047 then (if F = 0 then [105, 110, 102] else [78, 97, 78])
  else
    let m := if E = 0 then F else 2 ^ 52 + F
    if m = 0 then
      48 :: ((if prec = 0 then [] else 46 :: List.replicate prec 48) ++ [echar, 48])
    else
      let num := if 1075 ≤ E then m * 2 ^ (E - 1075) else m
      let den := if 1075 ≤ E then 1 else 2 ^ (1075 - max E 1)
      let k : Int := Int.ofNat (natDigits 10 true num).length - Int.ofNat (natDigits 10 true den).length
      let ge : Bool :=
        if 0 ≤ k then den * 10 ^ k.toNat ≤ num else den ≤ num * 10 ^ (-k).toNat
      let e10 : Int := if ge then k else k - 1
      let sh : Int := Int.ofNat prec - e10
      let R0 :=
        if 0 ≤ sh then roundHalfEven (num * 10 ^ sh.toNat) den
        else roundHalfEven num (den * 10 ^ (-sh).toNat)
      let R := if 10 ^ (prec + 1) ≤ R0 then R0 / 10 else R0
      let e10' := if 10 ^ (prec + 1) ≤ R0 then e10 + 1 else e10
      match padZeros (prec + 1) (natDigits 10 true R) with
      | [] => []
      | d :: ds =>
        d :: ((if prec = 0 then [] else 46 :: ds) ++
          echar :: (if e10' < 0 then [45] else []) ++ natDigits 10 true e10'.natAbs)

/-- output.rs `fmt_write`: the bytes one directive makes the text sink
write, or `none` when the sink fails (invalid UTF-8 or `%n`). -/
def fmt_write_render (a : Argument) : Option (List Nat) :=
  match a.specifier with
  | .percent => some [37]
  | .bytes data => write_str a.flags a.width a.precision data
  | .string data => write_str a.flags a.width a.precision data
  | .hex v => some (defineUnumeric [48, 120] (natDigits 16 true v.val) a.flags a.width)
  | .upperHex v => some (defineUnumeric [48, 120] (natDigits 16 false v.val) a.flags a.width)
  | .octal v => some (defineUnumeric [48, 111] (natDigits 8 true v.val) a.flags a.width)
  | .uint v => some (defineUnumeric [] (natDigits 10 true v.val) a.flags a.width)
  | .int v =>
    some (defineNumeric v.is_sign_negative (fun _ => natDigits 10 true v.val.natAbs)
      a.flags a.width (a.precision.getD 0))
  | .double bits fm =>
    match fm with
    | .scientific =>
      some (defineNumeric (f64IsNeg bits) (f64RenderExp false bits) a.flags a.width
        (a.precision.getD 6))
    | .upperScientific =>
      some (defineNumeric (f64IsNeg bits) (f64RenderExp true bits) a.flags a.width
        (a.precision.getD 6))
    | _ =>
      some (defineNumeric (f64IsNeg bits) (f64RenderFixed bits) a.flags a.width
        (a.precision.getD 6))
  | .char c => some (renderChar a.flags a.width c)
  | .pointer p => some (renderPointer a.flags a.width p.addr)
  | .writeBytesWritten _ _ => none

/-- output.rs `fmt_write` as a stateful sink over the accumulated string's
bytes: on success append and report the byte count, on failure leave the
buffer and return `-1`. -/
def fmt_write (s : List Nat) (a : Argument) : List Nat × Int :=
  match fmt_write_render a with
  | some bs => (s ++ bs, Int.ofNat bs.length)
  | none => (s, -1)

/-- output.rs `io_write`: the bytes one directive makes the byte sink
write.  `Bytes`/`String` go through `write_bytes`; everything else is
delegated to the `fmt_write` rendering through `FmtWriter`, whose result is
discarded, so a formatting failure there (such as `%n`) writes nothing and
is not an io error. -/
def io_write_render (a : Argument) : List Nat :=
  match a.specifier with
  | .percent => [37]
  | .bytes data => write_bytes a.flags a.width a.precision data
  | .string data => write_bytes a.flags a.width a.precision data
  | _ => (fmt_write_render a).getD []

/-- output.rs `io_write` as a stateful sink over the accumulated byte
buffer; with an in-memory buffer the underlying writes never fail, so the
sink always reports the bytes it appended. -/
def io_write (s : List Nat) (a : Argument) : List Nat × Int :=
  (s ++ io_write_render a, Int.ofNat (io_write_render a).length)

/-- A sink that records every directive it is handed and reports the byte
length of literal runs (zero for conversions); used to observe the
directive sequence the engine emits. -/
def collectSink (s : List Argument) (a : Argument) : List Argument × Int :=
  (s ++ [a],
    match a.specifier with
    | .bytes d => Int.ofNat d.length
    | _ => 0)

/-- Wrap a sink so that every return value it produces is also logged, in
call order. -/
def logSink (h : σ → Argument → σ × Int) (p : σ × List Int) (a : Argument) :
    (σ × List Int) × Int :=
  match h p.1 a with
  | (s', r) => ((s', p.2 ++ [r]), r)

/-- parser.rs `format`: split the template on `%`, emit the leading run as a
literal-bytes directive, then run the conversion loop.  Returns the summed
sink byte count, `-1` on the first failure, `none` on undefined behaviour. -/
def format (tmpl : List Nat) (args : List VarArg) (h : σ → Argument → σ × Int)
    (s : σ) : Option (σ × Int) :=
  match splitPercent tmpl with
  | [] => some (s, 0)
  | first :: rest =>
    match h s (Argument.ofSpec (.bytes first)) with
    | (s1, r) =>
      if r < 0 then some (s1, -1)
      else formatLoop h rest args false s1 r

/-! ## Structural lemmas about the template split -/

theorem splitPercent_cons (c : Nat) (rest : List Nat) :
    splitPercent (c :: rest) =
      if c = 37 then [] :: splitPercent rest
      else
        match splitPercent rest with
        | [] => [[c]]
        | g :: gs => (c :: g) :: gs := rfl

theorem splitPercent_ne_nil (l : List Nat) : splitPercent l ≠ [] := by
  induction l with
  | nil => simp [splitPercent]
  | cons c rest ih =>
    rw [splitPercent_cons]
    split
    · simp
    · cases h : splitPercent rest with
      | nil => simp
      | cons g gs => simp

theorem splitPercent_no_sep (l : List Nat) (h : 37 ∉ l) : splitPercent l = [l] := by
  induction l with
  | nil => simp [splitPercent]
  | cons c rest ih =>
    simp only [List.mem_cons, not_or] at h
    rw [splitPercent_cons, if_neg (fun hc => h.1 hc.symm), ih h.2]

theorem splitPercent_append (pre rest : List Nat) (h : 37 ∉ pre) :
    splitPercent (pre ++ 37 :: rest) = pre :: splitPercent rest := by
  induction pre with
  | nil => simp [splitPercent_cons]
  | cons c pre' ih =>
    simp only [List.mem_cons, not_or] at h
    rw [List.cons_append, splitPercent_cons, if_neg (fun hc => h.1 hc.symm), ih h.2]

theorem splitPercent_head (l : List Nat) :
    (splitPercent l).head? = some (l.takeWhile (· ≠ 37)) := by
  induction l with
  | nil => simp [splitPercent]
  | cons c rest ih =>
    by_cases hc : c = 37
    · subst hc
      rw [splitPercent_cons, if_pos rfl]
      simp [List.takeWhile_cons]
    · cases h : splitPercent rest with
      | nil => exact absurd h (splitPercent_ne_nil rest)
      | cons g gs =>
        rw [h] at ih
        simp only [List.head?_cons, Option.some_inj] at ih
        rw [splitPercent_cons, if_neg hc, h]
        simp [List.takeWhile_cons, hc, ih]

theorem splitPercent_piece_length (l : List Nat) :
    ∀ p ∈ splitPercent l, p.length ≤ l.length := by
  induction l with
  | nil => simp [splitPercent]
  | cons c rest ih =>
    intro p hp
    rw [splitPercent_cons] at hp
    by_cases hc : c = 37
    · rw [if_pos hc] at hp
      rcases List.mem_cons.mp hp with h | h
      · simp [h]
      · exact le_trans (ih p h) (by simp)
    · rw [if_neg hc] at hp
      cases h : splitPercent rest with
      | nil =>
        exact absurd h (splitPercent_ne_nil rest)
      | cons g gs =>
        rw [h] at hp
        rcases List.mem_cons.mp hp with h1 | h1
        · have hg : g ∈ splitPercent rest := by rw [h]; exact List.mem_cons_self g gs
          have := ih g hg
          subst h1
          simp only [List.length_cons]
          omega
        · have hm : p ∈ splitPercent rest := by rw [h]; exact List.mem_cons_of_mem g h1
          exact le_trans (ih p hm) (by simp)

/-! ## Claim theorems -/

/-- Claim C1: the spec says `%s` with a NULL fetched pointer renders the
literal text `(null)`.  The code has no NULL check: parser.rs line 193
passes the fetched pointer straight to `CStr::from_ptr`, whose behaviour on
NULL is undefined, so the engine never renders `(null)`.  The run of the
engine on template `"%s"` with a NULL pointer argument is undefined
(`none`), not a successful render. -/
theorem c1_null_string_undefined :
    format [37, 115] [.ptr CPtr.null] fmt_write ([] : List Nat) = none := by decide

/-- Claim C2 counterexample: on the template `"abc%"` (a trailing `%` with
no conversion byte) the engine returns `-1` after emitting `"abc"`; the
claim says it ends the template without error returning the accumulated
count 3. -/
theorem c2_trailing_percent_counterexample :
    format [97, 98, 99, 37] [] io_write ([] : List Nat) = some ([97, 98, 99], -1) ∧
    (some (([97, 98, 99] : List Nat), (-1 : Int)) ≠ some ([97, 98, 99], (3 : Int))) := by
  constructor
  · decide
  · decide

/-- Claim C2 amended: a trailing `%` with no conversion byte is treated as
`%` followed by NUL, and NUL is an unknown conversion byte, so for every
template of the form `pre ++ "%"` (with no other `%`), every argument list
and every sink, `format` aborts and returns `-1` (with the bytes of `pre`
already delivered to the sink). -/
theorem c2_trailing_percent_amended (pre : List Nat) (h37 : 37 ∉ pre)
    {σ : Type} (hdl : σ → Argument → σ × Int) (s : σ) (args : List VarArg) :
    ∃ s', format (pre ++ [37]) args hdl s = some (s', -1) := by
  have hs : splitPercent (pre ++ [37]) = [pre, []] := by
    have := splitPercent_append pre [] h37
    simpa [splitPercent] using this
  rcases h1 : hdl s (Argument.ofSpec (.bytes pre)) with ⟨s1, r⟩
  by_cases hr : r < 0
  · exact ⟨s1, by simp [format, hs, h1, hr]⟩
  · refine ⟨s1, ?_⟩
    simp [format, hs, h1, hr, formatLoop, parseConv, parse_flags, parse_flags_go,
      parse_width, parse_width_go, parse_precision, parse_length, buildSpec]

/-- Claim C2 witness: the amended statement at the concrete template
`"abc%"` with the byte sink. -/
theorem c2_trailing_percent_witness :
    (37 ∉ [97, 98, 99]) ∧
    ∃ s', format ([97, 98, 99] ++ [37]) [] io_write ([] : List Nat) = some (s', -1) :=
  ⟨by decide, c2_trailing_percent_amended [97, 98, 99] (by decide) io_write [] []⟩

/-- Claim C5 counterexample: `"%#o"` with value 8 renders `"0o10"`, which
still begins with a leading `0`; the claim that the digits are preceded by
the character `o` *instead of* a leading `0` (which would give `"o10"`)
is false. -/
theorem c5_octal_alternate_counterexample :
    format [37, 35, 111] [.int 8] io_write ([] : List Nat) = some ([48, 111, 49, 48], 4) ∧
    (([48, 111, 49, 48] : List Nat) ≠ 111 :: [49, 48]) := by
  constructor
  · decide
  · decide

/-- Claim C5 amended: for every octal conversion with the `#` flag, the
rendered output precedes the digits with `0o` (Rust's alternate octal
prefix) rather than glibc's single leading `0`: for every integer argument
`n`, `"%#o"` renders exactly `"0o"` followed by the octal digits of the
32-bit-narrowed value. -/
theorem c5_octal_alternate_amended (n : Int) :
    format [37, 35, 111] [.int n] io_write ([] : List Nat) =
      some ([48, 111] ++ natDigits 8 true (unsNarrow 32 n),
        Int.ofNat (2 + (natDigits 8 true (unsNarrow 32 n)).length)) := by
  simp [format, formatLoop, parseConv, parse_flags, parse_flags_go, parse_width,
    parse_width_go, parse_precision, parse_length, buildSpec, Length.parse_unsigned,
    fetchUnsigned, io_write, io_write_render, fmt_write_render, defineUnumeric,
    padIntegral, write_bytes, Argument.ofSpec, Flags.empty, usizeCast, splitPercent,
    UnsignedInt.val]
  rw [if_neg (by omega)]
  simp only [Option.some_inj, Prod.mk.injEq, true_and]
  ring

/-- Claim C6 counterexample: `"% 0*i"` with width 17 and value 23125
renders the 17-byte field `" 0000000000023125"`, which is a leading space,
*eleven* zeros and the five digits; the claim's description "a leading
space, twelve zeros, then the five digits, 17 bytes total" does not match
the rendered output (twelve zeros would make 18 bytes). -/
theorem c6_space_zero_width_counterexample :
    format [37, 32, 48, 42, 105] [.int 17, .int 23125] io_write ([] : List Nat) =
      some (32 :: (List.replicate 11 48 ++ [50, 51, 49, 50, 53]), 17) ∧
    (32 :: (List.replicate 11 48 ++ [50, 51, 49, 50, 53]) ≠
      32 :: (List.replicate 12 48 ++ [50, 51, 49, 50, 53])) := by
  constructor
  · decide
  · decide

/-- Claim C6 amended: when `PREPEND_SPACE` is honored on a non-negative
signed integer together with `PREPEND_ZERO` and a width, the emitted space
counts toward the total field width (the renderer compensates the width by
one): `"% 0*i"` with width 17 and value 23125 renders exactly
`" 0000000000023125"` — a leading space, eleven zeros, then the five
digits, 17 bytes total. -/
theorem c6_space_zero_width_amended :
    format [37, 32, 48, 42, 105] [.int 17, .int 23125] io_write ([] : List Nat) =
      some (32 :: (List.replicate 11 48 ++ [50, 51, 49, 50, 53]), 17) ∧
    (32 :: (List.replicate 11 48 ++ [50, 51, 49, 50, 53])).length = 17 := by
  constructor
  · decide
  · decide

/-- Claim C9: the `z` and `t` length modifiers select the same variadic
fetch for signed conversions — `Length::parse_signed` treats `Usize` and
`Isize` identically, `"%zi"` and `"%ti"` drive any sink identically on any
arguments, and `"%zd"` applied to an unsigned value above `isize::MAX`
(here `2^63 + 5`) renders the negative number `-9223372036854775803`. -/
theorem c9_length_z_t :
    (∀ args : List VarArg, Length.parse_signed .usize args = Length.parse_signed .isize args) ∧
    (∀ (σ : Type) (hdl : σ → Argument → σ × Int) (s : σ) (args : List VarArg),
      format [37, 122, 105] args hdl s = format [37, 116, 105] args hdl s) ∧
    format [37, 122, 100] [.int (2 ^ 63 + 5)] io_write ([] : List Nat) =
      some ([45, 57, 50, 50, 51, 51, 55, 50, 48, 51, 54, 56, 53, 52, 55, 55, 53, 56, 48, 51], 20) := by
  refine ⟨fun args => rfl, fun σ hdl s args => rfl, ?_⟩
  decide

/-! ## Unfolding equations for the driver -/

theorem formatLoop_nil (h : σ → Argument → σ × Int) (args : List VarArg) (lwp : Bool)
    (s : σ) (w : Int) : formatLoop h [] args lwp s w = some (s, w) := rfl

theorem formatLoop_cons_lwp (h : σ → Argument → σ × Int) (sub : List Nat)
    (rest : List (List Nat)) (args : List VarArg) (s : σ) (w : Int) :
    formatLoop h (sub :: rest) args true s w =
      (if (h s (Argument.ofSpec (.bytes sub))).2 < 0
       then some ((h s (Argument.ofSpec (.bytes sub))).1, -1)
       else formatLoop h rest args false (h s (Argument.ofSpec (.bytes sub))).1
         (w + (h s (Argument.ofSpec (.bytes sub))).2)) := by
  conv_lhs => rw [formatLoop]
  rcases h s (Argument.ofSpec (.bytes sub)) with ⟨s1, r⟩
  simp

theorem formatLoop_cons_ub (h : σ → Argument → σ × Int) (sub : List Nat)
    (rest : List (List Nat)) (args : List VarArg) (s : σ) (w : Int)
    (hp : parseConv sub rest.isEmpty w args = none) :
    formatLoop h (sub :: rest) args false s w = none := by
  conv_lhs => rw [formatLoop]
  simp [hp]

theorem formatLoop_cons_bad (h : σ → Argument → σ × Int) (sub : List Nat)
    (rest : List (List Nat)) (args : List VarArg) (s : σ) (w : Int)
    (hp : parseConv sub rest.isEmpty w args = some none) :
    formatLoop h (sub :: rest) args false s w = some (s, -1) := by
  conv_lhs => rw [formatLoop]
  simp [hp]

theorem formatLoop_cons_ok (h : σ → Argument → σ × Int) (sub : List Nat)
    (rest : List (List Nat)) (args : List VarArg) (s : σ) (w : Int)
    (a : Argument) (tr : List Nat) (args1 : List VarArg) (lwp1 : Bool)
    (hp : parseConv sub rest.isEmpty w args = some (some (a, tr, args1, lwp1))) :
    formatLoop h (sub :: rest) args false s w =
      (if (h s a).2 < 0 then some ((h s a).1, -1)
       else if (h (h s a).1 (Argument.ofSpec (.bytes tr))).2 < 0
       then some ((h (h s a).1 (Argument.ofSpec (.bytes tr))).1, -1)
       else formatLoop h rest args1 lwp1
         (h (h s a).1 (Argument.ofSpec (.bytes tr))).1
         (w + (h s a).2 + (h (h s a).1 (Argument.ofSpec (.bytes tr))).2)) := by
  conv_lhs => rw [formatLoop]
  simp only [hp]
  rcases h s a with ⟨s1, r1⟩
  rcases h s1 (Argument.ofSpec (.bytes tr)) with ⟨s2, r2⟩
  simp

theorem format_eq (tmpl : List Nat) (args : List VarArg) (h : σ → Argument → σ × Int)
    (s : σ) (first : List Nat) (rest : List (List Nat))
    (hsp : splitPercent tmpl = first :: rest) :
    format tmpl args h s =
      (if (h s (Argument.ofSpec (.bytes first))).2 < 0
       then some ((h s (Argument.ofSpec (.bytes first))).1, -1)
       else formatLoop h rest args false (h s (Argument.ofSpec (.bytes first))).1
         (h s (Argument.ofSpec (.bytes first))).2) := by
  conv_lhs => rw [format]
  rw [hsp]

/-- The collecting sink appends the directive it is handed. -/
theorem collectSink_fst (s : List Argument) (a : Argument) :
    (collectSink s a).1 = s ++ [a] := rfl

/-- The collecting sink never reports a negative count. -/
theorem collectSink_nonneg (s : List Argument) (a : Argument) : 0 ≤ (collectSink s a).2 := by
  rcases a with ⟨f, w, p, sp⟩
  cases sp <;> simp [collectSink]

/-- Every directive the loop hands to the collecting sink is appended: the
final log extends the starting log. -/
theorem formatLoop_collect_extends (parts : List (List Nat)) :
    ∀ (args : List VarArg) (lwp : Bool) (s : List Argument) (w : Int)
      (s' : List Argument) (r : Int),
    formatLoop collectSink parts args lwp s w = some (s', r) → ∃ t, s' = s ++ t := by
  induction parts with
  | nil =>
    intro args lwp s w s' r h
    rw [formatLoop_nil] at h
    simp only [Option.some_inj, Prod.mk.injEq] at h
    exact ⟨[], by simp [h.1]⟩
  | cons sub rest ih =>
    intro args lwp s w s' r h
    by_cases hl : lwp
    · subst hl
      rw [formatLoop_cons_lwp] at h
      rw [if_neg (not_lt.mpr (collectSink_nonneg _ _))] at h
      obtain ⟨t, ht⟩ := ih _ _ _ _ _ _ h
      exact ⟨[Argument.ofSpec (.bytes sub)] ++ t, by rw [ht, collectSink_fst]; simp⟩
    · have hl' : lwp = false := by simpa using hl
      subst hl'
      cases hc : parseConv sub rest.isEmpty w args with
      | none => rw [formatLoop_cons_ub collectSink sub rest args s w hc] at h; exact absurd h (by simp)
      | some o =>
        cases o with
        | none =>
          rw [formatLoop_cons_bad collectSink sub rest args s w hc] at h
          simp only [Option.some_inj, Prod.mk.injEq] at h
          exact ⟨[], by simp [h.1]⟩
        | some q =>
          obtain ⟨a, tr, args1, lwp1⟩ := q
          rw [formatLoop_cons_ok collectSink sub rest args s w a tr args1 lwp1 hc] at h
          rw [if_neg (not_lt.mpr (collectSink_nonneg _ _)),
            if_neg (not_lt.mpr (collectSink_nonneg _ _))] at h
          obtain ⟨t, ht⟩ := ih _ _ _ _ _ _ h
          exact ⟨[a] ++ ([Argument.ofSpec (.bytes tr)] ++ t),
            by rw [ht, collectSink_fst, collectSink_fst]; simp⟩

/-- Claim C8: for every template with no `%` byte, the engine emits exactly
the template bytes (as a single literal-bytes directive and nothing else)
and returns the template length, for any sink that reports the number of
bytes it was given; the collecting sink witnesses that the directive
sequence is exactly `[Bytes tmpl]`. -/
theorem c8_no_percent (tmpl : List Nat) (h37 : 37 ∉ tmpl) :
    (∀ (σ : Type) (hdl : σ → Argument → σ × Int) (s : σ) (args : List VarArg),
      (hdl s (Argument.ofSpec (.bytes tmpl))).2 = (tmpl.length : Int) →
      format tmpl args hdl s =
        some ((hdl s (Argument.ofSpec (.bytes tmpl))).1, (tmpl.length : Int))) ∧
    (∀ args : List VarArg,
      format tmpl args collectSink ([] : List Argument) =
        some ([Argument.ofSpec (.bytes tmpl)], (tmpl.length : Int))) := by
  have hs := splitPercent_no_sep tmpl h37
  have main : ∀ (σ : Type) (hdl : σ → Argument → σ × Int) (s : σ) (args : List VarArg),
      (hdl s (Argument.ofSpec (.bytes tmpl))).2 = (tmpl.length : Int) →
      format tmpl args hdl s =
        some ((hdl s (Argument.ofSpec (.bytes tmpl))).1, (tmpl.length : Int)) := by
    intro σ hdl s args hret
    rw [format_eq tmpl args hdl s tmpl [] hs, hret,
      if_neg (by omega), formatLoop_nil]
  refine ⟨main, fun args => ?_⟩
  have := main (List Argument) collectSink [] args (by simp [collectSink, Argument.ofSpec])
  simpa [collectSink] using this

/-- Claim C10: on every run of `format` the very first sink invocation is a
literal-bytes directive carrying the template bytes that precede the first
`%` (possibly empty), so the sink is invoked at least once — including on
the empty template, where the single directive is `Bytes []`. -/
theorem c10_first_directive :
    (∀ (tmpl : List Nat) (args : List VarArg) (log : List Argument) (r : Int),
      format tmpl args collectSink ([] : List Argument) = some (log, r) →
      log.head? = some (Argument.ofSpec (.bytes (tmpl.takeWhile (· ≠ 37))))) ∧
    (∀ args : List VarArg,
      format [] args collectSink ([] : List Argument) =
        some ([Argument.ofSpec (.bytes [])], 0)) := by
  constructor
  · intro tmpl args log r h
    cases hsp : splitPercent tmpl with
    | nil => exact absurd hsp (splitPercent_ne_nil tmpl)
    | cons first rest =>
      have hfirst : first = tmpl.takeWhile (· ≠ 37) := by
        have hh := splitPercent_head tmpl
        rw [hsp] at hh
        simpa using hh
      rw [format_eq tmpl args collectSink [] first rest hsp] at h
      rw [if_neg (not_lt.mpr (collectSink_nonneg _ _))] at h
      obtain ⟨t, ht⟩ := formatLoop_collect_extends rest args false _ _ log r h
      rw [ht, collectSink_fst, hfirst]
      simp
  · intro args
    rfl

/-! ## Percent runs (claim C7) -/

theorem splitPercent_replicate (m : Nat) :
    splitPercent (List.replicate m 37) = List.replicate (m + 1) [] := by
  induction m with
  | zero => simp [splitPercent]
  | succ n ih =>
    rw [List.replicate_succ, splitPercent_cons, if_pos rfl, ih]
    simp [List.replicate_succ]

theorem io_write_percent (s : List Nat) :
    io_write s (Argument.ofSpec .percent) = (s ++ [37], 1) := rfl

theorem io_write_empty_bytes (s : List Nat) :
    io_write s (Argument.ofSpec (.bytes [])) = (s, 0) := by
  simp [io_write, io_write_render, write_bytes, Argument.ofSpec]
  decide

theorem parseConv_empty_mid (w : Int) (args : List VarArg) :
    parseConv [] false w args =
      some (some (Argument.ofSpec .percent, [], args, true)) := rfl

theorem parseConv_empty_last (w : Int) (args : List VarArg) :
    parseConv [] true w args = some none := rfl

theorem formatLoop_percent_run (m : Nat) :
    ∀ (args : List VarArg) (s : List Nat) (w : Int),
    formatLoop io_write (List.replicate m []) args false s w =
      if m % 2 = 0 then some (s ++ List.replicate (m / 2) 37, w + (m / 2 : Nat))
      else some (s ++ List.replicate (m / 2) 37, -1) := by
  induction m using Nat.strong_induction_on with
  | _ m ih =>
    match m with
    | 0 => intro args s w; simp [formatLoop_nil]
    | 1 =>
      intro args s w
      rw [show List.replicate 1 ([] : List Nat) = [[]] from rfl]
      rw [formatLoop_cons_bad io_write [] [] args s w (parseConv_empty_last w args)]
      simp
    | (n + 2) =>
      intro args s w
      rw [List.replicate_succ]
      have hne : (List.replicate (n + 1) ([] : List Nat)).isEmpty = false := by
        simp [List.replicate_succ]
      rw [formatLoop_cons_ok io_write [] (List.replicate (n + 1) []) args s w
        (Argument.ofSpec .percent) [] args true (by rw [hne]; exact parseConv_empty_mid w args)]
      rw [io_write_percent]
      rw [if_neg (by norm_num)]
      rw [show ((s ++ [37], (1 : Int)).1) = s ++ [37] from rfl]
      rw [io_write_empty_bytes]
      rw [if_neg (by norm_num)]
      rw [List.replicate_succ, formatLoop_cons_lwp, io_write_empty_bytes]
      rw [if_neg (by norm_num)]
      rw [ih n (by omega)]
      have h2 : (n + 2) % 2 = n % 2 := by omega
      have h3 : (n + 2) / 2 = n / 2 + 1 := by omega
      rw [h2, h3]
      by_cases he : n % 2 = 0
      · rw [if_pos he, if_pos he]
        simp only [List.replicate_succ, Option.some_inj, Prod.mk.injEq]
        constructor
        · simp
        · push_cast
          ring
      · rw [if_neg he, if_neg he]
        simp [List.replicate_succ]

/-- Claim C7 counterexample: the template `"%%%"` (three adjacent `%`)
returns `-1` after emitting a single `%`; the claim that the trailing odd
`%` is a literal would give the output `"%%"` with return 2. -/
theorem c7_percent_runs_counterexample :
    format [37, 37, 37] [] io_write ([] : List Nat) = some ([37], -1) ∧
    (some (([37] : List Nat), (-1 : Int)) ≠ some ([37, 37], (2 : Int))) := by
  constructor
  · decide
  · decide

/-- Claim C7 amended: `%%` produces exactly one `%` byte and consumes no
variadic argument: a template of `N` adjacent `%` characters renders `N/2`
percent bytes and returns `N/2` when `N` is even (for any argument list,
which is left untouched), while for odd `N` the trailing unpaired `%` is an
incomplete conversion and `format` returns `-1` (still after emitting
`N/2` percent bytes).  In particular `"%%%%%%"` renders `"%%%"`. -/
theorem c7_percent_runs_amended :
    (∀ (k : Nat) (args : List VarArg),
      format (List.replicate (2 * k) 37) args io_write ([] : List Nat) =
        some (List.replicate k 37, (k : Int))) ∧
    (∀ (k : Nat) (args : List VarArg),
      format (List.replicate (2 * k + 1) 37) args io_write ([] : List Nat) =
        some (List.replicate k 37, -1)) := by
  constructor
  · intro k args
    have hsp : splitPercent (List.replicate (2 * k) 37) =
        [] :: List.replicate (2 * k) [] := by
      rw [splitPercent_replicate, List.replicate_succ]
    rw [format_eq _ args io_write [] [] (List.replicate (2 * k) []) hsp]
    rw [io_write_empty_bytes]
    rw [if_neg (by norm_num)]
    rw [formatLoop_percent_run (2 * k) args [] 0]
    rw [if_pos (by omega)]
    have h2 : 2 * k / 2 = k := by omega
    rw [h2]
    simp
  · intro k args
    have hsp : splitPercent (List.replicate (2 * k + 1) 37) =
        [] :: List.replicate (2 * k + 1) [] := by
      rw [splitPercent_replicate, List.replicate_succ]
    rw [format_eq _ args io_write [] [] (List.replicate (2 * k + 1) []) hsp]
    rw [io_write_empty_bytes]
    rw [if_neg (by norm_num)]
    rw [formatLoop_percent_run (2 * k + 1) args [] 0]
    rw [if_neg (by omega)]
    have h2 : (2 * k + 1) / 2 = k := by omega
    rw [h2]
    simp

/-! ## Callback accounting (claim C3) -/

theorem logSink_eq {σ : Type} (h : σ → Argument → σ × Int) (s : σ) (log : List Int)
    (a : Argument) :
    logSink h (s, log) a = (((h s a).1, log ++ [(h s a).2]), (h s a).2) := by
  rcases hp : h s a with ⟨s1, r1⟩
  simp [logSink, hp]

theorem formatLoop_logSink {σ : Type} (h : σ → Argument → σ × Int)
    (parts : List (List Nat)) :
    ∀ (args : List VarArg) (lwp : Bool) (s : σ) (log : List Int) (w : Int)
      (s' : σ) (log' : List Int) (r : Int),
    formatLoop (logSink h) parts args lwp (s, log) w = some ((s', log'), r) →
    ∃ nw, log' = log ++ nw ∧
      (((∀ x ∈ nw, 0 ≤ x) ∧ (r = w + nw.sum ∨ r = -1)) ∨
       (∃ p x, nw = p ++ [x] ∧ (∀ y ∈ p, 0 ≤ y) ∧ x < 0 ∧ r = -1)) := by
  induction parts with
  | nil =>
    intro args lwp s log w s' log' r hr
    rw [formatLoop_nil] at hr
    simp only [Option.some_inj, Prod.mk.injEq] at hr
    exact ⟨[], by simp [hr.1.2], Or.inl ⟨by simp, Or.inl (by simp [hr.2])⟩⟩
  | cons sub rest ih =>
    intro args lwp s log w s' log' r hr
    by_cases hl : lwp
    · subst hl
      rw [formatLoop_cons_lwp, logSink_eq] at hr
      by_cases hneg : (h s (Argument.ofSpec (.bytes sub))).2 < 0
      · rw [if_pos hneg] at hr
        simp only [Option.some_inj, Prod.mk.injEq] at hr
        refine ⟨[(h s (Argument.ofSpec (.bytes sub))).2], by simp [hr.1.2], Or.inr ?_⟩
        exact ⟨[], _, by simp, by simp, hneg, hr.2.symm⟩
      · rw [if_neg hneg] at hr
        obtain ⟨nw, hlog, hcase⟩ := ih _ _ _ _ _ _ _ _ hr
        refine ⟨(h s (Argument.ofSpec (.bytes sub))).2 :: nw, by simp [hlog], ?_⟩
        rcases hcase with ⟨hpos, hsum⟩ | ⟨p, x, hnw, hp, hx, hr1⟩
        · refine Or.inl ⟨?_, ?_⟩
          · intro y hy
            rcases List.mem_cons.mp hy with rfl | hy
            · omega
            · exact hpos y hy
          · rcases hsum with hsum | hsum
            · exact Or.inl (by rw [hsum]; simp; ring)
            · exact Or.inr hsum
        · exact Or.inr ⟨(h s (Argument.ofSpec (.bytes sub))).2 :: p, x, by simp [hnw],
            by intro y hy; rcases List.mem_cons.mp hy with rfl | hy; omega; exact hp y hy,
            hx, hr1⟩
    · have hl' : lwp = false := by simpa using hl
      subst hl'
      cases hc : parseConv sub rest.isEmpty w args with
      | none =>
        rw [formatLoop_cons_ub (logSink h) sub rest args (s, log) w hc] at hr
        exact absurd hr (by simp)
      | some o =>
        cases o with
        | none =>
          rw [formatLoop_cons_bad (logSink h) sub rest args (s, log) w hc] at hr
          simp only [Option.some_inj, Prod.mk.injEq] at hr
          exact ⟨[], by simp [hr.1.2], Or.inl ⟨by simp, Or.inr hr.2.symm⟩⟩
        | some q =>
          obtain ⟨a, tr, args1, lwp1⟩ := q
          rw [formatLoop_cons_ok (logSink h) sub rest args (s, log) w a tr args1 lwp1 hc] at hr
          rw [logSink_eq] at hr
          by_cases hneg1 : (h s a).2 < 0
          · rw [if_pos hneg1] at hr
            simp only [Option.some_inj, Prod.mk.injEq] at hr
            refine ⟨[(h s a).2], by simp [hr.1.2], Or.inr ?_⟩
            exact ⟨[], _, by simp, by simp, hneg1, hr.2.symm⟩
          · rw [if_neg hneg1] at hr
            rw [show (((h s a).1, log ++ [(h s a).2]) : σ × List Int).1 = (h s a).1 from rfl] at hr
            rw [logSink_eq] at hr
            by_cases hneg2 : (h (h s a).1 (Argument.ofSpec (.bytes tr))).2 < 0
            · rw [if_pos hneg2] at hr
              simp only [Option.some_inj, Prod.mk.injEq] at hr
              refine ⟨[(h s a).2, (h (h s a).1 (Argument.ofSpec (.bytes tr))).2],
                by rw [← hr.1.2]; simp, Or.inr ?_⟩
              refine ⟨[(h s a).2], _, by simp, ?_, hneg2, hr.2.symm⟩
              intro y hy
              rcases List.mem_cons.mp hy with rfl | hy
              · omega
              · simp at hy
            · rw [if_neg hneg2] at hr
              obtain ⟨nw, hlog, hcase⟩ := ih _ _ _ _ _ _ _ _ hr
              refine ⟨(h s a).2 :: (h (h s a).1 (Argument.ofSpec (.bytes tr))).2 :: nw,
                by simp [hlog], ?_⟩
              rcases hcase with ⟨hpos, hsum⟩ | ⟨p, x, hnw, hp, hx, hr1⟩
              · refine Or.inl ⟨?_, ?_⟩
                · intro y hy
                  rcases List.mem_cons.mp hy with rfl | hy
                  · omega
                  rcases List.mem_cons.mp hy with rfl | hy
                  · omega
                  · exact hpos y hy
                · rcases hsum with hsum | hsum
                  · exact Or.inl (by rw [hsum]; simp; ring)
                  · exact Or.inr hsum
              · refine Or.inr ⟨(h s a).2 :: (h (h s a).1 (Argument.ofSpec (.bytes tr))).2 :: p,
                  x, by simp [hnw], ?_, hx, hr1⟩
                intro y hy
                rcases List.mem_cons.mp hy with rfl | hy
                · omega
                rcases List.mem_cons.mp hy with rfl | hy
                · omega
                · exact hp y hy

/-- Claim C3: for every template and argument sequence, `format` returns
the sum of the per-directive callback returns when every callback return is
non-negative, and returns `-1` upon the first negative callback return or
the first unknown conversion byte, invoking no further callbacks after that
point: instrumenting an arbitrary sink with a return log, either every
logged return is non-negative and the result is their sum (or `-1` from an
unknown conversion byte reached with all callbacks so far non-negative), or
the log ends at its one negative entry and the result is `-1`. -/
theorem c3_return_accounting {σ : Type} (h : σ → Argument → σ × Int)
    (tmpl : List Nat) (args : List VarArg) (s : σ) (s' : σ) (log : List Int) (r : Int)
    (hrun : format tmpl args (logSink h) (s, []) = some ((s', log), r)) :
    ((∀ x ∈ log, 0 ≤ x) ∧ (r = log.sum ∨ r = -1)) ∨
    (∃ p x, log = p ++ [x] ∧ (∀ y ∈ p, 0 ≤ y) ∧ x < 0 ∧ r = -1) := by
  cases hsp : splitPercent tmpl with
  | nil => exact absurd hsp (splitPercent_ne_nil tmpl)
  | cons first rest =>
    rw [format_eq tmpl args (logSink h) (s, []) first rest hsp, logSink_eq] at hrun
    by_cases hneg : (h s (Argument.ofSpec (.bytes first))).2 < 0
    · rw [if_pos hneg] at hrun
      simp only [Option.some_inj, Prod.mk.injEq] at hrun
      refine Or.inr ⟨[], (h s (Argument.ofSpec (.bytes first))).2, by simp [hrun.1.2],
        by simp, hneg, hrun.2.symm⟩
    · rw [if_neg hneg] at hrun
      obtain ⟨nw, hlog, hcase⟩ := formatLoop_logSink h rest _ _ _ _ _ _ _ _ hrun
      simp only [List.nil_append] at hlog
      rcases hcase with ⟨hpos, hsum⟩ | ⟨p, x, hnw, hp, hx, hr1⟩
      · refine Or.inl ⟨?_, ?_⟩
        · intro y hy
          rw [hlog] at hy
          rcases List.mem_cons.mp hy with rfl | hy
          · omega
          · exact hpos y hy
        · rcases hsum with hsum | hsum
          · exact Or.inl (by rw [hsum, hlog]; simp)
          · exact Or.inr hsum
      · refine Or.inr ⟨(h s (Argument.ofSpec (.bytes first))).2 :: p, x, by simp [hlog, hnw], ?_, hx, hr1⟩
        intro y hy
        rcases List.mem_cons.mp hy with rfl | hy
        · omega
        · exact hp y hy

/-- Claim C3 witness: the accounting statement at the concrete template
`"abc"` with the byte sink, where the single logged return is 3 and the
result is their sum. -/
theorem c3_return_accounting_witness :
    ((∀ x ∈ [(3 : Int)], 0 ≤ x) ∧ ((3 : Int) = [(3 : Int)].sum ∨ (3 : Int) = -1)) ∨
    (∃ p x, [(3 : Int)] = p ++ [x] ∧ (∀ y ∈ p, 0 ≤ y) ∧ x < 0 ∧ (3 : Int) = -1) :=
  c3_return_accounting io_write [97, 98, 99] [] [] [97, 98, 99] [3] 3 (by decide)

/-- Claim C8 witness: the no-percent statement at the concrete template
`"abc"` with the collecting sink. -/
theorem c8_no_percent_witness :
    (37 ∉ [97, 98, 99]) ∧
    format [97, 98, 99] [] collectSink ([] : List Argument) =
      some ([Argument.ofSpec (.bytes [97, 98, 99])], 3) :=
  ⟨by decide, (c8_no_percent [97, 98, 99] (by decide)).2 []⟩

/-- Claim C10 witness: the first-directive statement at the concrete
template `"a"`. -/
theorem c10_first_directive_witness :
    ([Argument.ofSpec (.bytes [97])] : List Argument).head? =
      some (Argument.ofSpec (.bytes (([97] : List Nat).takeWhile (· ≠ 37)))) :=
  c10_first_directive.1 [97] [] [Argument.ofSpec (.bytes [97])] 1 (by decide)

/-! ## UTF-8 decoding lemmas (claim C4) -/

theorem utf8Chars_nil : utf8Chars [] = some [] := rfl

theorem utf8Chars_cons (ch : Nat) (rest : List Nat) :
    utf8Chars (ch :: rest) =
      if ch < 128 then (utf8Chars rest).map ([ch] :: ·)
      else if 194 ≤ ch ∧ ch ≤ 223 then
        match rest with
        | c :: r => if isCont c then (utf8Chars r).map ([ch, c] :: ·) else none
        | [] => none
      else if 224 ≤ ch ∧ ch ≤ 239 then
        match rest with
        | c :: d :: r =>
          if (if ch = 224 then 160 ≤ c ∧ c ≤ 191
              else if ch = 237 then 128 ≤ c ∧ c ≤ 159
              else isCont c) ∧ isCont d
          then (utf8Chars r).map ([ch, c, d] :: ·) else none
        | _ => none
      else if 240 ≤ ch ∧ ch ≤ 244 then
        match rest with
        | c :: d :: e :: r =>
          if (if ch = 240 then 144 ≤ c ∧ c ≤ 191
              else if ch = 244 then 128 ≤ c ∧ c ≤ 143
              else isCont c) ∧ isCont d ∧ isCont e
          then (utf8Chars r).map ([ch, c, d, e] :: ·) else none
        | _ => none
      else none := by
  match rest with
  | [] => rfl
  | [c] => rfl
  | [c, d] => rfl
  | c :: d :: e :: r => rfl

theorem utf8Chars_flatten (b : List Nat) :
    ∀ gs, utf8Chars b = some gs → gs.flatten = b ∧ ∀ g ∈ gs, g ≠ [] := by
  induction b using utf8Chars.induct with
  | case1 =>
    intro gs h
    rw [utf8Chars_nil, Option.some_inj] at h
    subst h
    simp
  | case2 ch rest hb ih =>
    intro gs h
    rw [utf8Chars_cons] at h
    simp only [if_pos hb] at h
    rcases Option.map_eq_some'.mp h with ⟨gs', hgs', rfl⟩
    obtain ⟨hf, hne⟩ := ih gs' hgs'
    refine ⟨by simp [hf], ?_⟩
    intro g hg
    rcases List.mem_cons.mp hg with rfl | hg
    · simp
    · exact hne g hg
  | case3 ch h1 h2 c r hc ih =>
    intro gs h
    rw [utf8Chars_cons] at h
    simp only [if_neg h1, if_pos h2, if_pos hc] at h
    rcases Option.map_eq_some'.mp h with ⟨gs', hgs', rfl⟩
    obtain ⟨hf, hne⟩ := ih gs' hgs'
    refine ⟨by simp [hf], ?_⟩
    intro g hg
    rcases List.mem_cons.mp hg with rfl | hg
    · simp
    · exact hne g hg
  | case4 ch h1 h2 c r hc =>
    intro gs h
    rw [utf8Chars_cons] at h
    simp only [if_neg h1, if_pos h2, if_neg hc] at h
    exact absurd h (by simp)
  | case5 ch h1 h2 =>
    intro gs h
    rw [utf8Chars_cons] at h
    simp only [if_neg h1, if_pos h2] at h
    exact absurd h (by simp)
  | case6 ch h1 h2 h3 c d r hcond ih =>
    intro gs h
    rw [utf8Chars_cons] at h
    simp only [if_neg h1, if_neg h2, if_pos h3, if_pos hcond] at h
    rcases Option.map_eq_some'.mp h with ⟨gs', hgs', rfl⟩
    obtain ⟨hf, hne⟩ := ih gs' hgs'
    refine ⟨by simp [hf], ?_⟩
    intro g hg
    rcases List.mem_cons.mp hg with rfl | hg
    · simp
    · exact hne g hg
  | case7 ch h1 h2 h3 c d r hcond =>
    intro gs h
    rw [utf8Chars_cons] at h
    simp only [if_neg h1, if_neg h2, if_pos h3, if_neg hcond] at h
    exact absurd h (by simp)
  | case8 ch rest h1 h2 h3 hshape =>
    intro gs h
    rw [utf8Chars_cons] at h
    simp only [if_neg h1, if_neg h2, if_pos h3] at h
    match rest, hshape, h with
    | [], _, h => exact absurd h (by simp)
    | [c], _, h => exact absurd h (by simp)
    | c :: d :: r, hshape, h => exact absurd rfl (hshape c d r)
  | case9 ch h1 h2 h3 h4 c d e r hcond ih =>
    intro gs h
    rw [utf8Chars_cons] at h
    simp only [if_neg h1, if_neg h2, if_neg h3, if_pos h4, if_pos hcond] at h
    rcases Option.map_eq_some'.mp h with ⟨gs', hgs', rfl⟩
    obtain ⟨hf, hne⟩ := ih gs' hgs'
    refine ⟨by simp [hf], ?_⟩
    intro g hg
    rcases List.mem_cons.mp hg with rfl | hg
    · simp
    · exact hne g hg
  | case10 ch h1 h2 h3 h4 c d e r hcond =>
    intro gs h
    rw [utf8Chars_cons] at h
    simp only [if_neg h1, if_neg h2, if_neg h3, if_pos h4, if_neg hcond] at h
    exact absurd h (by simp)
  | case11 ch rest h1 h2 h3 h4 hshape =>
    intro gs h
    rw [utf8Chars_cons] at h
    simp only [if_neg h1, if_neg h2, if_neg h3, if_pos h4] at h
    match rest, hshape, h with
    | [], _, h => exact absurd h (by simp)
    | [c], _, h => exact absurd h (by simp)
    | [c, d], _, h => exact absurd h (by simp)
    | c :: d :: e :: r, hshape, h => exact absurd rfl (hshape c d e r)
  | case12 ch rest h1 h2 h3 h4 =>
    intro gs h
    rw [utf8Chars_cons] at h
    simp only [if_neg h1, if_neg h2, if_neg h3, if_neg h4] at h
    exact absurd h (by simp)

theorem utf8Chars_ascii (b : List Nat) (hb : ∀ c ∈ b, c < 128) :
    utf8Chars b = some (b.map (fun c => [c])) := by
  induction b with
  | nil => rfl
  | cons c rest ih =>
    have hc : c < 128 := hb c (by simp)
    rw [utf8Chars_cons]
    simp only [if_pos hc, ih (fun x hx => hb x (by simp [hx])), Option.map, List.map_cons]

theorem length_le_flatten (gs : List (List Nat)) (h : ∀ g ∈ gs, g ≠ []) :
    gs.length ≤ gs.flatten.length := by
  induction gs with
  | nil => simp
  | cons g gs ih =>
    simp only [List.flatten_cons, List.length_append, List.length_cons]
    have hg : 0 < g.length := List.length_pos.mpr (h g (by simp))
    have := ih (fun x hx => h x (by simp [hx]))
    omega

/-! ## Well-formed arguments and their preservation (claim C4) -/

/-- A variadic slot is good when any string memory it points to is ASCII
and of machine-representable length. -/
def goodArg : VarArg → Prop
  | .ptr p => (∀ c ∈ p.content, c < 128) ∧ p.content.length < 2 ^ 64
  | _ => True

/-- All slots of the pack are good. -/
def goodArgs (args : List VarArg) : Prop := ∀ a ∈ args, goodArg a

theorem goodArgs_tail (a : VarArg) (args : List VarArg) (h : goodArgs (a :: args)) :
    goodArgs args := fun x hx => h x (List.mem_cons_of_mem a hx)

theorem fetchSigned_args (w : Nat) (args : List VarArg) (v : Int) (args' : List VarArg)
    (h : fetchSigned w args = some (v, args')) (hg : goodArgs args) : goodArgs args' := by
  cases args with
  | nil => exact absurd h (by simp [fetchSigned])
  | cons a rest =>
    cases a with
    | int v0 =>
      simp only [fetchSigned, Option.some_inj, Prod.mk.injEq] at h
      exact h.2 ▸ goodArgs_tail _ _ hg
    | double b => exact absurd h (by simp [fetchSigned])
    | ptr p => exact absurd h (by simp [fetchSigned])

theorem fetchUnsigned_args (w : Nat) (args : List VarArg) (v : Nat) (args' : List VarArg)
    (h : fetchUnsigned w args = some (v, args')) (hg : goodArgs args) : goodArgs args' := by
  cases args with
  | nil => exact absurd h (by simp [fetchUnsigned])
  | cons a rest =>
    cases a with
    | int v0 =>
      simp only [fetchUnsigned, Option.some_inj, Prod.mk.injEq] at h
      exact h.2 ▸ goodArgs_tail _ _ hg
    | double b => exact absurd h (by simp [fetchUnsigned])
    | ptr p => exact absurd h (by simp [fetchUnsigned])

theorem fetchDouble_args (args : List VarArg) (v : Nat) (args' : List VarArg)
    (h : fetchDouble args = some (v, args')) (hg : goodArgs args) : goodArgs args' := by
  cases args with
  | nil => exact absurd h (by simp [fetchDouble])
  | cons a rest =>
    cases a with
    | int v0 => exact absurd h (by simp [fetchDouble])
    | double b =>
      simp only [fetchDouble, Option.some_inj, Prod.mk.injEq] at h
      exact h.2 ▸ goodArgs_tail _ _ hg
    | ptr p => exact absurd h (by simp [fetchDouble])

theorem fetchPtr_args (args : List VarArg) (p : CPtr) (args' : List VarArg)
    (h : fetchPtr args = some (p, args')) (hg : goodArgs args) :
    goodArgs args' ∧ goodArg (.ptr p) := by
  cases args with
  | nil => exact absurd h (by simp [fetchPtr])
  | cons a rest =>
    cases a with
    | int v0 => exact absurd h (by simp [fetchPtr])
    | double b => exact absurd h (by simp [fetchPtr])
    | ptr p0 =>
      simp only [fetchPtr, Option.some_inj, Prod.mk.injEq] at h
      refine ⟨h.2 ▸ goodArgs_tail _ _ hg, h.1 ▸ hg (.ptr p0) (by simp)⟩

theorem parse_signed_args (len : Length) (args : List VarArg) (v : SignedInt)
    (args' : List VarArg) (h : len.parse_signed args = some (v, args'))
    (hg : goodArgs args) : goodArgs args' := by
  cases len <;>
    simp only [Length.parse_signed] at h <;>
    rcases Option.map_eq_some'.mp h with ⟨⟨v0, a0⟩, hf, heq⟩ <;>
    obtain ⟨-, rfl⟩ := Prod.mk.injEq .. ▸ heq <;>
    exact fetchSigned_args _ _ _ _ hf hg

theorem parse_unsigned_args (len : Length) (args : List VarArg) (v : UnsignedInt)
    (args' : List VarArg) (h : len.parse_unsigned args = some (v, args'))
    (hg : goodArgs args) : goodArgs args' := by
  cases len <;>
    simp only [Length.parse_unsigned] at h <;>
    rcases Option.map_eq_some'.mp h with ⟨⟨v0, a0⟩, hf, heq⟩ <;>
    obtain ⟨-, rfl⟩ := Prod.mk.injEq .. ▸ heq <;>
    exact fetchUnsigned_args _ _ _ _ hf hg

theorem parse_width_go_length (sub : List Nat) :
    ∀ w, (parse_width_go w sub).2.length ≤ sub.length := by
  induction sub with
  | nil => intro w; simp [parse_width_go]
  | cons c rest ih =>
    intro w
    rw [parse_width_go]
    split
    · exact le_trans (ih _) (by simp)
    · simp

theorem parse_width_args (sub : List Nat) (args : List VarArg) (v : Int)
    (sub' : List Nat) (args' : List VarArg)
    (h : parse_width sub args = some (v, sub', args')) (hg : goodArgs args) :
    goodArgs args' ∧ sub'.length ≤ sub.length := by
  unfold parse_width at h
  split at h
  · rcases Option.map_eq_some'.mp h with ⟨⟨v0, a0⟩, hf, heq⟩
    simp only [Prod.mk.injEq] at heq
    obtain ⟨-, rfl, rfl⟩ := heq
    exact ⟨fetchSigned_args _ _ _ _ hf hg, by simp [next_char]⟩
  · simp only [Option.some_inj, Prod.mk.injEq] at h
    obtain ⟨-, rfl, rfl⟩ := h
    exact ⟨hg, parse_width_go_length sub 0⟩

theorem parse_precision_args (sub : List Nat) (args : List VarArg) (p : Option Int)
    (sub' : List Nat) (args' : List VarArg)
    (h : parse_precision sub args = some (p, sub', args')) (hg : goodArgs args) :
    goodArgs args' ∧ sub'.length ≤ sub.length := by
  unfold parse_precision at h
  split at h
  · rcases Option.map_eq_some'.mp h with ⟨⟨v0, s0, a0⟩, hf, heq⟩
    simp only [Prod.mk.injEq] at heq
    obtain ⟨-, rfl, rfl⟩ := heq
    obtain ⟨hgood, hlen⟩ := parse_width_args _ _ _ _ _ hf hg
    exact ⟨hgood, le_trans hlen (by simp [next_char])⟩
  · simp only [Option.some_inj, Prod.mk.injEq] at h
    obtain ⟨-, rfl, rfl⟩ := h
    exact ⟨hg, le_refl _⟩

theorem parse_flags_go_length (sub : List Nat) :
    ∀ f, (parse_flags_go f sub).2.length ≤ sub.length := by
  induction sub with
  | nil => intro f; simp [parse_flags_go]
  | cons c rest ih =>
    intro f
    rw [parse_flags_go]
    split
    · exact le_trans (ih _) (by simp)
    · split
      · exact le_trans (ih _) (by simp)
      · split
        · exact le_trans (ih _) (by simp)
        · split
          · exact le_trans (ih _) (by simp)
          · split
            · exact le_trans (ih _) (by simp)
            · split
              · exact le_trans (ih _) (by simp)
              · simp

theorem parse_length_length (sub : List Nat) :
    (parse_length sub).2.length ≤ sub.length := by
  unfold parse_length
  split <;> simp <;> omega

theorem buildSpec_good (ch : Nat) (len : Length) (w : Int) (args : List VarArg)
    (spec : Specifier) (args1 : List VarArg) (lwp : Bool)
    (h : buildSpec ch len w args = .ok spec args1 lwp) (hg : goodArgs args) :
    goodArgs args1 ∧
    (∀ d, spec = .string d → (∀ c ∈ d, c < 128) ∧ d.length < 2 ^ 64) ∧
    (∀ d, spec ≠ .bytes d) := by
  rw [buildSpec] at h
  by_cases hc0 : ch = 37
  · rw [if_pos hc0] at h
    injection h with h1 h2 h3
    subst h1; subst h2
    exact ⟨hg, by simp, by simp⟩
  · rw [if_neg hc0] at h
    by_cases hc1 : ch = 100 ∨ ch = 105
    · rw [if_pos hc1] at h
      split at h
      · rename_i v a hps
        injection h with h1 h2 h3
        subst h1; subst h2
        exact ⟨parse_signed_args _ _ _ _ hps hg, by simp, by simp⟩
      · exact ConvResult.noConfusion h
    · rw [if_neg hc1] at h
      by_cases hc2 : ch = 120
      · rw [if_pos hc2] at h
        split at h
        · rename_i v a hps
          injection h with h1 h2 h3
          subst h1; subst h2
          exact ⟨parse_unsigned_args _ _ _ _ hps hg, by simp, by simp⟩
        · exact ConvResult.noConfusion h
      · rw [if_neg hc2] at h
        by_cases hc3 : ch = 88
        · rw [if_pos hc3] at h
          split at h
          · rename_i v a hps
            injection h with h1 h2 h3
            subst h1; subst h2
            exact ⟨parse_unsigned_args _ _ _ _ hps hg, by simp, by simp⟩
          · exact ConvResult.noConfusion h
        · rw [if_neg hc3] at h
          by_cases hc4 : ch = 117
          · rw [if_pos hc4] at h
            split at h
            · rename_i v a hps
              injection h with h1 h2 h3
              subst h1; subst h2
              exact ⟨parse_unsigned_args _ _ _ _ hps hg, by simp, by simp⟩
            · exact ConvResult.noConfusion h
          · rw [if_neg hc4] at h
            by_cases hc5 : ch = 111
            · rw [if_pos hc5] at h
              split at h
              · rename_i v a hps
                injection h with h1 h2 h3
                subst h1; subst h2
                exact ⟨parse_unsigned_args _ _ _ _ hps hg, by simp, by simp⟩
              · exact ConvResult.noConfusion h
            · rw [if_neg hc5] at h
              by_cases hc6 : ch = 102 ∨ ch = 70
              · rw [if_pos hc6] at h
                split at h
                · rename_i v a hps
                  injection h with h1 h2 h3
                  subst h1; subst h2
                  exact ⟨fetchDouble_args _ _ _ hps hg, by simp, by simp⟩
                · exact ConvResult.noConfusion h
              · rw [if_neg hc6] at h
                by_cases hc7 : ch = 101 ∨ ch = 69
                · rw [if_pos hc7] at h
                  split at h
                  · rename_i v a hps
                    injection h with h1 h2 h3
                    subst h1; subst h2
                    exact ⟨fetchDouble_args _ _ _ hps hg, by simp, by simp⟩
                  · exact ConvResult.noConfusion h
                · rw [if_neg hc7] at h
                  by_cases hc8 : ch = 103 ∨ ch = 71
                  · rw [if_pos hc8] at h
                    split at h
                    · rename_i v a hps
                      injection h with h1 h2 h3
                      subst h1; subst h2
                      exact ⟨fetchDouble_args _ _ _ hps hg, by simp, by simp⟩
                    · exact ConvResult.noConfusion h
                  · rw [if_neg hc8] at h
                    by_cases hc9 : ch = 97 ∨ ch = 65
                    · rw [if_pos hc9] at h
                      split at h
                      · rename_i v a hps
                        injection h with h1 h2 h3
                        subst h1; subst h2
                        exact ⟨fetchDouble_args _ _ _ hps hg, by simp, by simp⟩
                      · exact ConvResult.noConfusion h
                    · rw [if_neg hc9] at h
                      by_cases hc10 : ch = 115
                      · rw [if_pos hc10] at h
                        split at h
                        · rename_i p a hps
                          split at h
                          · rename_i bs hcs
                            injection h with h1 h2 h3
                            subst h1; subst h2
                            obtain ⟨hga, hp⟩ := fetchPtr_args _ _ _ hps hg
                            refine ⟨hga, ?_, by simp⟩
                            intro d hd
                            injection hd with hbd
                            subst hbd
                            unfold cstrFromPtr at hcs
                            split at hcs
                            · exact Option.noConfusion hcs
                            · simp only [Option.some_inj] at hcs
                              subst hcs
                              obtain ⟨hascii, hlen⟩ := hp
                              constructor
                              · intro c hc
                                exact hascii c ((List.takeWhile_sublist _).subset hc)
                              · exact lt_of_le_of_lt (List.takeWhile_sublist _).length_le hlen
                          · exact ConvResult.noConfusion h
                        · exact ConvResult.noConfusion h
                      · rw [if_neg hc10] at h
                        by_cases hc11 : ch = 99
                        · rw [if_pos hc11] at h
                          split at h
                          · rename_i v a hps
                            injection h with h1 h2 h3
                            subst h1; subst h2
                            exact ⟨fetchUnsigned_args _ _ _ _ hps hg, by simp, by simp⟩
                          · exact ConvResult.noConfusion h
                        · rw [if_neg hc11] at h
                          by_cases hc12 : ch = 112
                          · rw [if_pos hc12] at h
                            split at h
                            · rename_i v a hps
                              injection h with h1 h2 h3
                              subst h1; subst h2
                              exact ⟨(fetchPtr_args _ _ _ hps hg).1, by simp, by simp⟩
                            · exact ConvResult.noConfusion h
                          · rw [if_neg hc12] at h
                            by_cases hc13 : ch = 110
                            · rw [if_pos hc13] at h
                              split at h
                              · rename_i v a hps
                                injection h with h1 h2 h3
                                subst h1; subst h2
                                exact ⟨(fetchPtr_args _ _ _ hps hg).1, by simp, by simp⟩
                              · exact ConvResult.noConfusion h
                            · rw [if_neg hc13] at h
                              exact ConvResult.noConfusion h

theorem parseConv_good (sub : List Nat) (isLast : Bool) (w : Int) (args : List VarArg)
    (a : Argument) (tr : List Nat) (args1 : List VarArg) (lwp1 : Bool)
    (h : parseConv sub isLast w args = some (some (a, tr, args1, lwp1)))
    (hg : goodArgs args) :
    goodArgs args1 ∧ tr.length ≤ sub.length ∧
    (∀ d, a.specifier = .string d → (∀ c ∈ d, c < 128) ∧ d.length < 2 ^ 64) ∧
    (∀ d, a.specifier ≠ .bytes d) := by
  unfold parseConv at h
  split at h
  · exact absurd h (by simp)
  · rename_i width s2 args2 hpw
    split at h
    · exact absurd h (by simp)
    · rename_i prec s3 args3 hpp
      split at h
      · exact absurd h (by simp)
      · exact absurd h (by simp)
      · rename_i spec args4 lwp hbs
        simp only [Option.some_inj, Prod.mk.injEq] at h
        obtain ⟨rfl, rfl, rfl, rfl⟩ := h
        obtain ⟨hg2, hl2⟩ := parse_width_args _ _ _ _ _ hpw hg
        obtain ⟨hg3, hl3⟩ := parse_precision_args _ _ _ _ _ hpp hg2
        obtain ⟨hg4, hstr, hbytes⟩ := buildSpec_good _ _ _ _ _ _ _ hbs hg3
        refine ⟨hg4, ?_, hstr, hbytes⟩
        calc ((parse_length s3).2.drop 1).length
            ≤ (parse_length s3).2.length := by simp
          _ ≤ s3.length := parse_length_length s3
          _ ≤ s2.length := hl3
          _ ≤ (parse_flags sub).2.length := hl2
          _ ≤ sub.length := parse_flags_go_length sub Flags.empty

/-! ## Agreement of the two sinks on literal and string directives (claim C4) -/

theorem flatten_map_singleton (l : List Nat) : (l.map (fun c => [c])).flatten = l := by
  induction l <;> simp_all

theorem take_min_length (l : List Nat) (n : Nat) : l.take (min l.length n) = l.take n := by
  rcases le_total l.length n with h | h
  · rw [min_eq_left h, List.take_length, List.take_of_length_le h]
  · rw [min_eq_right h]

theorem write_str_default (b : List Nat) (hlen : b.length < 2 ^ 64) (out : List Nat)
    (h : write_str Flags.empty 0 none b = some out) :
    write_bytes Flags.empty 0 none b = out := by
  have hp : usizeCast (Int.ofNat b.length) = b.length := by
    show ((b.length : Int) % 2 ^ 64).toNat = b.length
    omega
  unfold write_str at h
  split at h
  · exact Option.noConfusion h
  · rename_i groups hu
    obtain ⟨hf, hne⟩ := utf8Chars_flatten b groups hu
    have hgl : groups.length ≤ b.length := hf ▸ length_le_flatten groups hne
    simp only [Option.some_inj, Option.getD_none, hp] at h
    rw [List.take_of_length_le hgl, hf] at h
    simp only [Flags.empty, Bool.false_eq_true, if_false] at h
    rw [show usizeCast 0 = 0 from rfl] at h
    simp only [Nat.zero_sub, List.replicate_zero, List.nil_append] at h
    rw [← h]
    simp only [write_bytes, Option.getD_none, hp, min_self, List.take_length,
      Flags.empty, Bool.false_eq_true, if_false]
    rw [show usizeCast 0 = 0 from rfl]
    simp

theorem write_str_ascii (flags : Flags) (width : Int) (precision : Option Int)
    (b : List Nat) (hascii : ∀ c ∈ b, c < 128) (out : List Nat)
    (h : write_str flags width precision b = some out) :
    write_bytes flags width precision b = out := by
  have hu := utf8Chars_ascii b hascii
  unfold write_str at h
  split at h
  · rename_i hnone
    rw [hu] at hnone
    exact Option.noConfusion hnone
  · rename_i groups heq
    rw [hu, Option.some_inj] at heq
    subst heq
    simp only [Option.some_inj] at h
    rw [← List.map_take, flatten_map_singleton, List.length_map] at h
    simp only [write_bytes]
    rw [take_min_length]
    exact h

/-- Per-directive agreement: whenever the text sink renders a directive
successfully, the byte sink writes exactly the same bytes, provided any
string payload is ASCII and any literal payload carries the default
formatting the driver gives it. -/
theorem render_agree (a : Argument)
    (hstr : ∀ d, a.specifier = .string d → (∀ c ∈ d, c < 128) ∧ d.length < 2 ^ 64)
    (hbytes : ∀ d, a.specifier = .bytes d →
      a.flags = Flags.empty ∧ a.width = 0 ∧ a.precision = none ∧ d.length < 2 ^ 64)
    (bs : List Nat) (hf : fmt_write_render a = some bs) :
    io_write_render a = bs := by
  rcases a with ⟨flags, width, precision, spec⟩
  cases spec with
  | percent => simpa [fmt_write_render, io_write_render] using hf
  | bytes d =>
    obtain ⟨hfl, hw, hp, hlen⟩ := hbytes d rfl
    simp only at hfl hw hp
    subst hfl; subst hw; subst hp
    simp only [fmt_write_render] at hf
    simp only [io_write_render]
    exact write_str_default d hlen bs hf
  | string d =>
    obtain ⟨hascii, hlen⟩ := hstr d rfl
    simp only [fmt_write_render] at hf
    simp only [io_write_render]
    exact write_str_ascii flags width precision d hascii bs hf
  | writeBytesWritten w p =>
    exact absurd hf (by simp [fmt_write_render])
  | int v =>
    simp only [io_write_render]
    rw [hf]
    rfl
  | uint v =>
    simp only [io_write_render]
    rw [hf]
    rfl
  | octal v =>
    simp only [io_write_render]
    rw [hf]
    rfl
  | double bits fm =>
    simp only [io_write_render]
    rw [hf]
    rfl
  | char c =>
    simp only [io_write_render]
    rw [hf]
    rfl
  | hex v =>
    simp only [io_write_render]
    rw [hf]
    rfl
  | upperHex v =>
    simp only [io_write_render]
    rw [hf]
    rfl
  | pointer p =>
    simp only [io_write_render]
    rw [hf]
    rfl

theorem ofNat_not_neg (n : Nat) : ¬(Int.ofNat n < 0) := not_lt.mpr (Int.natCast_nonneg n)

theorem fmt_write_fst (s : List Nat) (a : Argument) (bs : List Nat)
    (h : fmt_write_render a = some bs) : (fmt_write s a).1 = s ++ bs := by
  simp [fmt_write, h]

theorem fmt_write_snd (s : List Nat) (a : Argument) (bs : List Nat)
    (h : fmt_write_render a = some bs) : (fmt_write s a).2 = Int.ofNat bs.length := by
  simp [fmt_write, h]

theorem fmt_write_snd_none (s : List Nat) (a : Argument)
    (h : fmt_write_render a = none) : (fmt_write s a).2 = -1 := by
  simp [fmt_write, h]

theorem io_write_fst (s : List Nat) (a : Argument) :
    (io_write s a).1 = s ++ io_write_render a := rfl

theorem io_write_snd (s : List Nat) (a : Argument) :
    (io_write s a).2 = Int.ofNat (io_write_render a).length := rfl

theorem c4_loop (parts : List (List Nat)) :
    ∀ (args : List VarArg) (lwp : Bool) (s : List Nat) (w : Int)
      (sf si : List Nat) (rf ri : Int),
    (∀ p ∈ parts, p.length < 2 ^ 64) → goodArgs args →
    formatLoop fmt_write parts args lwp s w = some (sf, rf) → 0 ≤ rf →
    formatLoop io_write parts args lwp s w = some (si, ri) →
    sf = si := by
  induction parts with
  | nil =>
    intro args lwp s w sf si rf ri hp hg hf hrf hi
    rw [formatLoop_nil] at hf hi
    simp only [Option.some_inj, Prod.mk.injEq] at hf hi
    rw [← hf.1, ← hi.1]
  | cons sub rest ih =>
    intro args lwp s w sf si rf ri hp hg hf hrf hi
    have hsub : sub.length < 2 ^ 64 := hp sub (List.mem_cons_self sub rest)
    have hrest : ∀ p ∈ rest, p.length < 2 ^ 64 :=
      fun p hq => hp p (List.mem_cons_of_mem sub hq)
    by_cases hl : lwp
    · subst hl
      rw [formatLoop_cons_lwp] at hf hi
      cases hfr : fmt_write_render (Argument.ofSpec (.bytes sub)) with
      | none =>
        rw [fmt_write_snd_none _ _ hfr, if_pos (by norm_num)] at hf
        simp only [Option.some_inj, Prod.mk.injEq] at hf
        rw [← hf.2] at hrf
        norm_num at hrf
      | some bs =>
        rw [fmt_write_snd _ _ _ hfr, fmt_write_fst _ _ _ hfr,
          if_neg (ofNat_not_neg _)] at hf
        have hren : io_write_render (Argument.ofSpec (.bytes sub)) = bs := by
          refine render_agree _ (by intro d hd; exact absurd hd (by simp [Argument.ofSpec]))
            ?_ bs hfr
          intro d hd
          simp only [Argument.ofSpec, Specifier.bytes.injEq] at hd
          subst hd
          exact ⟨rfl, rfl, rfl, hsub⟩
        rw [io_write_snd, io_write_fst, hren, if_neg (ofNat_not_neg _)] at hi
        exact ih args false (s ++ bs) (w + Int.ofNat bs.length) sf si rf ri
          hrest hg hf hrf hi
    · have hl' : lwp = false := by simpa using hl
      subst hl'
      cases hc : parseConv sub rest.isEmpty w args with
      | none =>
        rw [formatLoop_cons_ub fmt_write sub rest args s w hc] at hf
        exact absurd hf (by simp)
      | some o =>
        cases o with
        | none =>
          rw [formatLoop_cons_bad fmt_write sub rest args s w hc] at hf
          simp only [Option.some_inj, Prod.mk.injEq] at hf
          rw [← hf.2] at hrf
          norm_num at hrf
        | some q =>
          obtain ⟨a, tr, args1, lwp1⟩ := q
          rw [formatLoop_cons_ok fmt_write sub rest args s w a tr args1 lwp1 hc] at hf
          rw [formatLoop_cons_ok io_write sub rest args s w a tr args1 lwp1 hc] at hi
          obtain ⟨hg1, htr, hstr, hnotbytes⟩ :=
            parseConv_good sub rest.isEmpty w args a tr args1 lwp1 hc hg
          cases hfr1 : fmt_write_render a with
          | none =>
            rw [fmt_write_snd_none _ _ hfr1, if_pos (by norm_num)] at hf
            simp only [Option.some_inj, Prod.mk.injEq] at hf
            rw [← hf.2] at hrf
            norm_num at hrf
          | some bs1 =>
            rw [fmt_write_snd _ _ _ hfr1, fmt_write_fst _ _ _ hfr1,
              if_neg (ofNat_not_neg _)] at hf
            have hren1 : io_write_render a = bs1 :=
              render_agree a hstr (fun d hd => absurd hd (hnotbytes d)) bs1 hfr1
            rw [io_write_snd, io_write_fst, hren1, if_neg (ofNat_not_neg _)] at hi
            cases hfr2 : fmt_write_render (Argument.ofSpec (.bytes tr)) with
            | none =>
              rw [fmt_write_snd_none _ _ hfr2, if_pos (by norm_num)] at hf
              simp only [Option.some_inj, Prod.mk.injEq] at hf
              rw [← hf.2] at hrf
              norm_num at hrf
            | some bs2 =>
              rw [fmt_write_snd _ _ _ hfr2, fmt_write_fst _ _ _ hfr2,
                if_neg (ofNat_not_neg _)] at hf
              have hren2 : io_write_render (Argument.ofSpec (.bytes tr)) = bs2 := by
                refine render_agree _
                  (by intro d hd; exact absurd hd (by simp [Argument.ofSpec])) ?_ bs2 hfr2
                intro d hd
                simp only [Argument.ofSpec, Specifier.bytes.injEq] at hd
                subst hd
                exact ⟨rfl, rfl, rfl, lt_of_le_of_lt htr hsub⟩
              rw [io_write_snd, io_write_fst, hren2, if_neg (ofNat_not_neg _)] at hi
              exact ih args1 lwp1 (s ++ bs1 ++ bs2)
                (w + Int.ofNat bs1.length + Int.ofNat bs2.length) sf si rf ri
                hrest hg1 hf hrf hi

/-- Claim C4 counterexample: on the template `"%3s"` with the two-byte
UTF-8 string `"é"` (bytes 195, 169) both sinks succeed, but the text sink
pads to a width of 3 characters (two pad spaces, 4 bytes total) while the
byte sink pads to a width of 3 bytes (one pad space, 3 bytes total), so the
outputs are not byte-identical. -/
theorem c4_sink_equiv_counterexample :
    format [37, 51, 115] [.ptr ⟨1, [195, 169, 0]⟩] fmt_write ([] : List Nat) =
      some ([32, 32, 195, 169], 4) ∧
    format [37, 51, 115] [.ptr ⟨1, [195, 169, 0]⟩] io_write ([] : List Nat) =
      some ([32, 195, 169], 3) ∧
    ([32, 32, 195, 169] : List Nat) ≠ [32, 195, 169] := by
  refine ⟨?_, ?_, ?_⟩
  · decide
  · decide
  · decide

/-- Claim C4 amended: for every template and argument sequence on which
both sinks succeed, *provided every string argument points to ASCII bytes*
(and template and string memory have machine-representable length), the
text sink (`fmt_write` into a string) and the byte sink (`io_write` into a
byte buffer) produce byte-identical output, including any width padding of
strings. -/
theorem c4_sink_equiv_amended (tmpl : List Nat) (args : List VarArg)
    (hT : tmpl.length < 2 ^ 64) (hA : goodArgs args)
    (sf si : List Nat) (rf ri : Int)
    (hf : format tmpl args fmt_write [] = some (sf, rf)) (hrf : 0 ≤ rf)
    (hi : format tmpl args io_write [] = some (si, ri)) (hri : 0 ≤ ri) :
    sf = si := by
  cases hsp : splitPercent tmpl with
  | nil => exact absurd hsp (splitPercent_ne_nil tmpl)
  | cons first rest =>
    have hfirst : first.length < 2 ^ 64 :=
      lt_of_le_of_lt
        (splitPercent_piece_length tmpl first (hsp ▸ List.mem_cons_self first rest)) hT
    have hrest : ∀ p ∈ rest, p.length < 2 ^ 64 := fun p hq =>
      lt_of_le_of_lt
        (splitPercent_piece_length tmpl p (hsp ▸ List.mem_cons_of_mem first hq)) hT
    rw [format_eq tmpl args fmt_write [] first rest hsp] at hf
    rw [format_eq tmpl args io_write [] first rest hsp] at hi
    cases hfr : fmt_write_render (Argument.ofSpec (.bytes first)) with
    | none =>
      rw [fmt_write_snd_none _ _ hfr, if_pos (by norm_num)] at hf
      simp only [Option.some_inj, Prod.mk.injEq] at hf
      rw [← hf.2] at hrf
      norm_num at hrf
    | some bs =>
      rw [fmt_write_snd _ _ _ hfr, fmt_write_fst _ _ _ hfr,
        if_neg (ofNat_not_neg _)] at hf
      have hren : io_write_render (Argument.ofSpec (.bytes first)) = bs := by
        refine render_agree _ (by intro d hd; exact absurd hd (by simp [Argument.ofSpec]))
          ?_ bs hfr
        intro d hd
        simp only [Argument.ofSpec, Specifier.bytes.injEq] at hd
        subst hd
        exact ⟨rfl, rfl, rfl, hfirst⟩
      rw [io_write_snd, io_write_fst, hren, if_neg (ofNat_not_neg _)] at hi
      exact c4_loop rest args false ([] ++ bs) (Int.ofNat bs.length) sf si rf ri
        hrest hA hf hrf hi

/-- Claim C4 witness: the amended statement at the concrete template
`"hello %s"` with the ASCII string `"world"`, where both sinks render
`"hello world"`. -/
theorem c4_sink_equiv_witness :
    ([104, 101, 108, 108, 111, 32, 37, 115] : List Nat).length < 2 ^ 64 ∧
    ([104, 101, 108, 108, 111, 32, 119, 111, 114, 108, 100] : List Nat) =
      [104, 101, 108, 108, 111, 32, 119, 111, 114, 108, 100] :=
  ⟨by decide,
    c4_sink_equiv_amended [104, 101, 108, 108, 111, 32, 37, 115]
      [.ptr ⟨1, [119, 111, 114, 108, 100, 0]⟩] (by decide)
      (by intro a ha; simp at ha; subst ha; exact ⟨by decide, by decide⟩)
      [104, 101, 108, 108, 111, 32, 119, 111, 114, 108, 100]
      [104, 101, 108, 108, 111, 32, 119, 111, 114, 108, 100] 11 11
      (by decide) (by decide) (by decide) (by decide)⟩

end PrintfCompat
